import Mathlib

/-!
Verification of the liquid simulation core of `dragonfly/block/liquid.go`
(tick engine, breadth-first path finder, flow application).

The Go code is shallowly embedded: block positions are triples of integers,
the world collaborator is a finite association list of blocks together with
an effect log recording every `PlaceBlock` / `BreakBlock` call (and every
invocation of the external `Harden` capability), machine integers are
modelled as `Int` (the `int8` conversions in the path finder are exact for
the depth range `[1,8]` and the spread decays the engine is invoked with),
and the unbounded `for` loop of `calculateLiquidPaths` is given an explicit
fuel parameter, running out of fuel being reported as a distinguished error.
The one `panic` in `flowInto` is modelled as the error value `panicDrops`.
-/

namespace Dragonfly

/-- Block position: three signed integers, mirroring `world.BlockPos` (a `[3]int`). -/
structure Pos3 where
  x : Int
  y : Int
  z : Int
deriving DecidableEq, Repr

/-- Modelled from the spec: `world.BlockPos.Neighbours` is not part of the source
file; `liquid.go` tests the callback argument against `pos[1]-1`, `pos[1]` and
`pos[1]+1`, so the enumeration yields the four horizontal and the two vertical
face neighbours. -/
def Pos3.neighbours (p : Pos3) : List Pos3 :=
  [⟨p.x - 1, p.y, p.z⟩, ⟨p.x + 1, p.y, p.z⟩, ⟨p.x, p.y, p.z - 1⟩, ⟨p.x, p.y, p.z + 1⟩,
   ⟨p.x, p.y - 1, p.z⟩, ⟨p.x, p.y + 1, p.z⟩]

/-- The four horizontal neighbours (same `y`) of a position. -/
def Pos3.horizNeighbours (p : Pos3) : List Pos3 :=
  [⟨p.x - 1, p.y, p.z⟩, ⟨p.x + 1, p.y, p.z⟩, ⟨p.x, p.y, p.z - 1⟩, ⟨p.x, p.y, p.z + 1⟩]

/-- The position directly below: `pos.Add(world.BlockPos{0, -1})`. -/
def below (pos : Pos3) : Pos3 := ⟨pos.x, pos.y - 1, pos.z⟩

/-- The position directly above: `pos.Add(world.BlockPos{0, 1})`. -/
def above (pos : Pos3) : Pos3 := ⟨pos.x, pos.y + 1, pos.z⟩

/-- The state carried by a block implementing the `Liquid` interface:
`LiquidDepth`, `LiquidFalling`, `SpreadDecay` and the `LiquidType` tag. -/
structure LiquidData where
  depth : Int
  falling : Bool
  decay : Int
  kind : String
deriving DecidableEq, Repr

/-- `WithDepth` returns the liquid with the depth and falling flag passed;
decay rate and type tag are properties of the liquid kind and are kept. -/
def LiquidData.withDepth (b : LiquidData) (depth : Int) (falling : Bool) : LiquidData :=
  { b with depth := depth, falling := falling }

/-- A block value as observed by the liquid core: `Air{}`, a `Liquid`, or some
other block described by the capabilities the core queries dynamically
(`LiquidRemovable` registration, `HasLiquidDrops`, `world.Item`). -/
inductive Block where
  | air
  | liquid (l : LiquidData)
  | solid (removable : Bool) (drops : Bool) (item : Bool)
deriving DecidableEq, Repr

/-- The `world_internal.LiquidRemovable` registration / `LiquidRemovable`
interface cast. Air implements `HasLiquidDrops` in the repository, and
(modelled from the spec) so do the liquids themselves: `canFlowInto` with
`sideways=true` explicitly guards against removable liquid blocks. -/
def Block.liquidRemovable : Block → Bool
  | .air => true
  | .liquid _ => true
  | .solid removable _ _ => removable

/-- The `HasLiquidDrops` capability; `false` for air and liquids. -/
def Block.hasLiquidDrops : Block → Bool
  | .air => false
  | .liquid _ => false
  | .solid _ drops _ => drops

/-- The `world.Item` interface cast used before dropping items. -/
def Block.isItem : Block → Bool
  | .air => false
  | .liquid _ => false
  | .solid _ _ item => item

/-- One entry of the effect log: a `PlaceBlock` or `BreakBlock` call on the
world collaborator, or an invocation of a liquid's external `Harden`
capability (which receives the position hardening and the source position
the flow came from). -/
inductive Effect where
  | place (pos : Pos3) (b : Block)
  | brk (pos : Pos3)
  | harden (pos : Pos3) (src : Pos3)
deriving DecidableEq, Repr

/-- The position an effect acts on. -/
def Effect.target : Effect → Pos3
  | .place p _ => p
  | .brk p => p
  | .harden p _ => p

/-- Whether the effect is a direct world mutation issued by this core
(`PlaceBlock` / `BreakBlock`), as opposed to a delegated `Harden` call. -/
def Effect.isMutation : Effect → Bool
  | .place _ _ => true
  | .brk _ => true
  | .harden _ _ => false

/-- The world collaborator: a finite map from positions to blocks (absent
positions read as air, matching runtime ID `0`) plus the chronological log
of effects issued through it. -/
structure World where
  blocks : List (Pos3 × Block)
  log : List Effect
deriving DecidableEq, Repr

/-- `w.Block(pos)`: the block at a position, air when nothing is stored. -/
def World.blockAt (w : World) (p : Pos3) : Block :=
  match w.blocks.find? (fun e => decide (e.1 = p)) with
  | some e => e.2
  | none => .air

/-- `w.PlaceBlock(pos, b)`: overwrite the block at `pos`. -/
def World.placeBlock (w : World) (p : Pos3) (blk : Block) : World :=
  { blocks := (p, blk) :: w.blocks, log := w.log ++ [.place p blk] }

/-- `w.BreakBlock(pos)`: destroy the block at `pos` (it reads as air
afterwards; drop semantics belong to the collaborator). -/
def World.breakBlock (w : World) (p : Pos3) : World :=
  { blocks := (p, .air) :: w.blocks, log := w.log ++ [.brk p] }

/-- Modelled from the spec: the chemistry of `Liquid.Harden` is implemented
outside this core (per §1 it is delegated); only its invocation, with the
contact position passed, is recorded. The blocks map is left untouched —
whatever mutation hardening performs is owned by the capability, not by
`flowInto`. -/
def World.hardenEvent (w : World) (p src : Pos3) : World :=
  { w with log := w.log ++ [.harden p src] }

/-- Errors of the embedded operations: `panicDrops` is the single `panic` in
`flowInto`; `fuel` reports exhaustion of the explicit fuel given to the
path-finder loop (an artifact of the embedding, not a behaviour of the code). -/
inductive TickErr where
  | panicDrops
  | fuel
deriving DecidableEq, Repr

/-- `source` checks if a liquid is a source block: full depth and not falling. -/
def source (b : LiquidData) : Bool :=
  b.depth == 8 && !b.falling

/-- `canFlowInto` checks if a liquid can flow into the block at a position.
An empty position (runtime ID `0`) always accepts; otherwise the block must
be registered liquid-removable, and a sideways flow is additionally refused
when the target is a liquid at full depth or of a different type. -/
def canFlowInto (b : LiquidData) (w : World) (pos : Pos3) (sideways : Bool) : Bool :=
  if w.blockAt pos = .air then true
  else
    let ok := (w.blockAt pos).liquidRemovable
    if ok = true ∧ sideways = true then
      match w.blockAt pos with
      | .liquid liq => if liq.depth = 8 ∨ liq.kind ≠ b.kind then false else ok
      | _ => ok
    else ok

/-- The closure body of `sourceAround`: whether one enumerated neighbour
sets `sourcePresent`. The neighbour directly below is skipped, and a
same-type liquid counts when it sits directly above, is a source, or has a
strictly higher depth. -/
def sustainEntry (b : LiquidData) (pos : Pos3) (w : World) (neighbour : Pos3) : Bool :=
  if neighbour.y = pos.y - 1 then
    -- We don't care about water below this one.
    false
  else
    match w.blockAt neighbour with
    | .liquid side =>
      if side.kind = b.kind then
        if neighbour.y = pos.y + 1 ∨ source side = true ∨ side.depth > b.depth then true
        else false
      else false
    | _ => false

/-- `sourceAround` checks if a sustaining liquid exists in the blocks around
the position passed. -/
def sourceAround (b : LiquidData) (pos : Pos3) (w : World) : Bool :=
  pos.neighbours.any (sustainEntry b pos w)

/-- `flowInto` makes the liquid flow into the position passed. On success the
block there is replaced by the liquid at the propagated depth; the boolean
result reports whether the flow was accepted. The `panic` for removable
blocks with drops that do not implement `world.Item` is the error case. -/
def flowInto (b : LiquidData) (src pos : Pos3) (w : World) (falling : Bool) :
    Except TickErr (World × Bool) :=
  let newDepth := if falling = true then b.depth else b.depth - b.decay
  if newDepth ≤ 0 ∧ falling = false then .ok (w, false)
  else
    match w.blockAt pos with
    | .liquid existingLiquid =>
      if existingLiquid.kind = b.kind then
        if existingLiquid.depth ≥ newDepth ∨ existingLiquid.falling = true then
          -- The existing liquid had a higher depth than the one being
          -- propagated, or it was falling (considered full depth).
          .ok (w, true)
        else .ok (w.placeBlock pos (.liquid (b.withDepth newDepth falling)), true)
      else
        .ok (w.hardenEvent pos src, false)
    | existing =>
      if existing.liquidRemovable = false then
        -- Can't flow into this block.
        .ok (w, false)
      else
        let w1 := if existing = .air then w else w.breakBlock pos
        if existing.hasLiquidDrops = true ∧ existing.isItem = false then
          -- Blocks removable by liquid with drops should always implement
          -- world.Item; anything else aborts loudly.
          .error .panicDrops
        else .ok (w1.placeBlock pos (.liquid (b.withDepth newDepth falling)), true)

/-- A path to a block a liquid tends to flow into, as produced by the path
finder: the sequence of positions from the step next to the source to the
discovered drop point. -/
abbrev LiquidPath := List Pos3

/-- A node of the flow-path search tree. The parent pointer of the Go
`liquidNode` is represented by the list of ancestor `(x, z)` pairs, nearest
ancestor first, the root last. -/
structure LiquidNode where
  x : Int
  z : Int
  depth : Int
  chain : List (Int × Int)
deriving DecidableEq, Repr

/-- `Len`: the number of hops from the node to the root of the search tree. -/
def LiquidNode.len (n : LiquidNode) : Nat := n.chain.length

/-- `neighbours`: the four horizontal neighbours of a node, each with the
depth decreased by the doubled decay and this node as parent. -/
def LiquidNode.neighbours (node : LiquidNode) (decay : Int) :
    LiquidNode × LiquidNode × LiquidNode × LiquidNode :=
  let ch := (node.x, node.z) :: node.chain
  (⟨node.x - 1, node.z, node.depth - decay, ch⟩,
   ⟨node.x + 1, node.z, node.depth - decay, ch⟩,
   ⟨node.x, node.z - 1, node.depth - decay, ch⟩,
   ⟨node.x, node.z + 1, node.depth - decay, ch⟩)

/-- `Path` converts a node into a path: the positions of the nodes on the
parent chain, the one nearest the root first, the node itself last; the root
is not part of the path. All positions lie on the `y` level of the source. -/
def LiquidNode.path (node : LiquidNode) (src : Pos3) : LiquidPath :=
  (((node.x, node.z) :: node.chain).dropLast).reverse.map fun q => ⟨q.1, src.y, q.2⟩

/-- The scratch queue of the search: the nodes not yet dequeued (the Go queue
is an append-only buffer with a read cursor; only the pending suffix is
semantically relevant) and the shortest-found-path bound, initialised to
`math.MaxInt8`. -/
structure LiquidQueue where
  pending : List LiquidNode
  shortestPath : Int
deriving DecidableEq, Repr

/-- `spreadNeighbour` decides the fate of a candidate node: discarded when
its remaining depth is exhausted, when its path is longer than the current
bound, or when its position refuses sideways flow; reported as a completed
path when the position below accepts flow; enqueued for further lateral
expansion otherwise. -/
def spreadNeighbour (b : LiquidData) (src : Pos3) (w : World) (node : LiquidNode)
    (q : LiquidQueue) : Bool × LiquidQueue :=
  if node.depth + 3 ≤ 0 then
    -- Depth had reached zero or below, can't spread any further.
    (false, q)
  else if (node.len : Int) > q.shortestPath then
    -- This path is longer than an existing path, so don't spread any further.
    (false, q)
  else if canFlowInto b w ⟨node.x, src.y, node.z⟩ true = false then
    -- Can't flow into this block, can't spread any further.
    (false, q)
  else if canFlowInto b w ⟨node.x, src.y - 1, node.z⟩ false = true then
    (true, q)
  else (false, { q with pending := q.pending ++ [node] })

/-- One completion check of the main loop: when `spreadNeighbour` reports a
path, the bound is tightened to that node's length and its path recorded. -/
def handleNeighbour (b : LiquidData) (pos : Pos3) (w : World) (n : LiquidNode)
    (q : LiquidQueue) (paths : List LiquidPath) : LiquidQueue × List LiquidPath :=
  match spreadNeighbour b pos w n q with
  | (true, q1) => ({ q1 with shortestPath := (n.len : Int) }, paths ++ [n.path pos])
  | (false, q1) => (q1, paths)

/-- One iteration of the search loop: dequeue the front node and run the four
`spreadNeighbour` checks on its horizontal neighbours, in the order
`x-1`, `x+1`, `z-1`, `z+1`. -/
def processNode (b : LiquidData) (pos : Pos3) (w : World) (node : LiquidNode)
    (q : LiquidQueue) (paths : List LiquidPath) : LiquidQueue × List LiquidPath :=
  let ns := node.neighbours (b.decay * 2)
  let r1 := handleNeighbour b pos w ns.1 q paths
  let r2 := handleNeighbour b pos w ns.2.1 r1.1 r1.2
  let r3 := handleNeighbour b pos w ns.2.2.1 r2.1 r2.2
  handleNeighbour b pos w ns.2.2.2 r3.1 r3.2

/-- The search loop of `calculateLiquidPaths`, with explicit fuel: it runs
until the queue is exhausted and returns all completed paths. -/
def runPaths (b : LiquidData) (pos : Pos3) (w : World) :
    Nat → LiquidQueue → List LiquidPath → Except TickErr (List LiquidPath)
  | 0, _, _ => .error .fuel
  | fuel + 1, q, paths =>
    match q.pending with
    | [] => .ok paths
    | node :: rest =>
      let r := processNode b pos w node { q with pending := rest } paths
      runPaths b pos w fuel r.1 r.2

/-- `calculateLiquidPaths` seeds the search with one node at the liquid's own
position carrying the liquid's depth, and the bound at `math.MaxInt8`. -/
def calculateLiquidPaths (fuel : Nat) (b : LiquidData) (pos : Pos3) (w : World) :
    Except TickErr (List LiquidPath) :=
  runPaths b pos w fuel ⟨[⟨pos.x, pos.z, b.depth, []⟩], 127⟩ []

/-- Sequential flow of one liquid into a list of target positions, threading
the world through; the boolean results are discarded, as in the Go callers. -/
def flowSeq (b : LiquidData) (src : Pos3) (targets : List Pos3) (w : World)
    (falling : Bool) : Except TickErr World :=
  match targets with
  | [] => .ok w
  | t :: ts =>
    match flowInto b src t w falling with
    | .error e => .error e
    | .ok r => flowSeq b src ts r.1 falling

/-- `spreadOutwards` spreads the liquid into the horizontal directions: every
enumerated neighbour at the same `y` receives a non-falling flow. -/
def spreadOutwards (b : LiquidData) (pos : Pos3) (w : World) : Except TickErr World :=
  flowSeq b pos (pos.neighbours.filter fun n => decide (n.y = pos.y)) w false

/-- The flow loop over the computed paths: every path no longer than the
length of the first one receives a flow into its first step. -/
def flowPaths (b : LiquidData) (pos : Pos3) (w : World) (paths : List LiquidPath)
    (smallestLen : Nat) : Except TickErr World :=
  match paths with
  | [] => .ok w
  | p :: rest =>
    if p.length ≤ smallestLen then
      match flowInto b pos (p.headD ⟨0, 0, 0⟩) w false with
      | .error e => .error e
      | .ok r => flowPaths b pos r.1 rest smallestLen
    else flowPaths b pos w rest smallestLen

/-- The falling step of the tick: a falling liquid that cannot flow below is
forced to full falling depth; a liquid over an accepting position pushes a
full-depth falling copy below (the local liquid value is unchanged then). -/
def tickFall (b : LiquidData) (pos : Pos3) (w : World) (canFlowBelow : Bool) :
    Except TickErr (LiquidData × World) :=
  if b.falling = true ∧ canFlowBelow = false then .ok (b.withDepth 8 true, w)
  else if canFlowBelow = true then
    match flowInto (b.withDepth 8 true) pos (below pos) w true with
    | .error e => .error e
    | .ok r => .ok (b, r.1)
  else .ok (b, w)

/-- The lateral phase of the tick: nothing happens when the depth cannot
survive one decay step; otherwise, for a source or a liquid that could not
flow below, the path finder is consulted and the liquid spreads outwards
(no paths) or into the first step of each path tied with the first one. -/
def tickSpread (fuel : Nat) (b : LiquidData) (pos : Pos3) (w : World)
    (canFlowBelow : Bool) : Except TickErr World :=
  if b.depth ≤ b.decay then
    -- Current depth is smaller than the decay, so spreading results in nothing.
    .ok w
  else if source b = true ∨ canFlowBelow = false then
    match calculateLiquidPaths fuel b pos w with
    | .error e => .error e
    | .ok paths =>
      if paths = [] then spreadOutwards b pos w
      else flowPaths b pos w paths (paths.headD []).length
  else .ok w

/-- `tickLiquid` ticks a liquid block at a position: a liquid that is not a
source and has no sustaining neighbour decays (and the tick ends); otherwise
the falling step runs, followed by the lateral phase. -/
def tickLiquid (fuel : Nat) (b : LiquidData) (pos : Pos3) (w : World) :
    Except TickErr World :=
  if source b = false ∧ sourceAround b pos w = false then
    if b.depth - 4 ≤ 0 then .ok (w.placeBlock pos .air)
    else .ok (w.placeBlock pos (.liquid (b.withDepth (b.depth - 2 * b.decay) false)))
  else
    let canFlowBelow := canFlowInto b w (below pos) false
    match tickFall b pos w canFlowBelow with
    | .error e => .error e
    | .ok r => tickSpread fuel r.1 pos r.2 canFlowBelow

/-! ### Basic lemmas about the world collaborator -/

@[simp]
theorem World.blockAt_placeBlock_self (w : World) (p : Pos3) (blk : Block) :
    (w.placeBlock p blk).blockAt p = blk := by
  simp [World.blockAt, World.placeBlock, List.find?]

theorem World.blockAt_placeBlock_ne (w : World) (p q : Pos3) (blk : Block) (h : q ≠ p) :
    (w.placeBlock p blk).blockAt q = w.blockAt q := by
  simp [World.blockAt, World.placeBlock, List.find?, Ne.symm h]

theorem World.blockAt_breakBlock_ne (w : World) (p q : Pos3) (h : q ≠ p) :
    (w.breakBlock p).blockAt q = w.blockAt q := by
  simp [World.blockAt, World.breakBlock, List.find?, Ne.symm h]

@[simp]
theorem World.blockAt_hardenEvent (w : World) (p src q : Pos3) :
    (w.hardenEvent p src).blockAt q = w.blockAt q := rfl

@[simp]
theorem World.log_placeBlock (w : World) (p : Pos3) (blk : Block) :
    (w.placeBlock p blk).log = w.log ++ [.place p blk] := rfl

@[simp]
theorem World.log_breakBlock (w : World) (p : Pos3) :
    (w.breakBlock p).log = w.log ++ [.brk p] := rfl

@[simp]
theorem World.log_hardenEvent (w : World) (p src : Pos3) :
    (w.hardenEvent p src).log = w.log ++ [.harden p src] := rfl

/-! ### Characterisation of `flowInto` -/

/-- The early depth guard: a non-falling flow of a liquid whose depth does
not survive one decay fails with no effect at all. -/
theorem flowInto_guard (b : LiquidData) (src pos : Pos3) (w : World)
    (hd : b.depth - b.decay ≤ 0) :
    flowInto b src pos w false = .ok (w, false) := by
  simp [flowInto, hd]

/-- Contact with a different-type liquid: the existing liquid's harden
capability is invoked with the source position, and the flow fails. -/
theorem flowInto_harden (b : LiquidData) (src pos : Pos3) (w : World) (falling : Bool)
    (ex : LiquidData)
    (hg : ¬(falling = false ∧ b.depth - b.decay ≤ 0))
    (hblk : w.blockAt pos = .liquid ex) (hk : ex.kind ≠ b.kind) :
    flowInto b src pos w falling = .ok (w.hardenEvent pos src, false) := by
  cases falling with
  | true => simp [flowInto, hblk, hk]
  | false =>
    simp only [not_and, forall_const] at hg
    simp [flowInto, hblk, hk, hg, not_le.mp hg]

/-- A non-liquid target that is not registered liquid-removable refuses the
flow with no effect. -/
theorem flowInto_notRemovable (b : LiquidData) (src pos : Pos3) (w : World)
    (falling : Bool) (d i : Bool)
    (hblk : w.blockAt pos = .solid false d i) :
    flowInto b src pos w falling = .ok (w, false) := by
  cases falling <;> simp [flowInto, hblk, Block.liquidRemovable]

/-- Every failing `flowInto` call falls into one of the three cases: the
depth guard, a different-type liquid, or a non-removable block. -/
theorem flowInto_false_cases (b : LiquidData) (src pos : Pos3) (w : World)
    (falling : Bool) (w1 : World)
    (h : flowInto b src pos w falling = .ok (w1, false)) :
    (falling = false ∧ b.depth - b.decay ≤ 0) ∨
      (∃ ex, w.blockAt pos = .liquid ex ∧ ex.kind ≠ b.kind) ∨
      (∃ d i, w.blockAt pos = .solid false d i) := by
  by_cases hg : (if falling = true then b.depth else b.depth - b.decay) ≤ 0 ∧ falling = false
  · exact .inl ⟨hg.2, by cases falling <;> simp_all⟩
  · rcases hblk : w.blockAt pos with _ | ex | ⟨r, dr, it⟩
    · exfalso
      simp only [flowInto, if_neg hg, hblk] at h
      simp [Block.liquidRemovable, Block.hasLiquidDrops] at h
    · by_cases hk : ex.kind = b.kind
      · exfalso
        simp only [flowInto, if_neg hg, hblk, if_pos hk] at h
        split at h <;> (try split at h) <;> simp_all
      · exact .inr (.inl ⟨ex, rfl, hk⟩)
    · refine .inr (.inr ⟨dr, it, ?_⟩)
      rcases r with _ | _
      · rfl
      · exfalso
        simp only [flowInto, if_neg hg, hblk] at h
        simp [Block.liquidRemovable] at h
        split at h <;> (try split at h) <;> simp_all

/-- A failing `flowInto` call leaves every block unchanged and logs no
`PlaceBlock` or `BreakBlock` effect (at most a delegated harden event). -/
theorem flowInto_false_noMutation (b : LiquidData) (src pos : Pos3) (w : World)
    (falling : Bool) (w1 : World)
    (h : flowInto b src pos w falling = .ok (w1, false)) :
    (∀ p, w1.blockAt p = w.blockAt p) ∧
      ∃ es, w1.log = w.log ++ es ∧ ∀ e ∈ es, e.isMutation = false := by
  by_cases hg : (if falling = true then b.depth else b.depth - b.decay) ≤ 0 ∧ falling = false
  · simp only [flowInto, if_pos hg, Except.ok.injEq, Prod.mk.injEq] at h
    refine ⟨fun p => by rw [← h.1], [], by simp [← h.1]⟩
  · rcases hblk : w.blockAt pos with _ | ex | ⟨r, dr, it⟩
    · exfalso
      simp only [flowInto, if_neg hg, hblk] at h
      simp [Block.liquidRemovable, Block.hasLiquidDrops] at h
    · by_cases hk : ex.kind = b.kind
      · exfalso
        simp only [flowInto, if_neg hg, hblk, if_pos hk] at h
        split at h <;> (try split at h) <;> simp_all
      · have := flowInto_harden b src pos w falling ex
          (by rintro ⟨h1, h2⟩; exact hg (by simp [h1, h2])) hblk hk
        rw [this] at h
        obtain ⟨h1, -⟩ : w.hardenEvent pos src = w1 ∧ False = false := by
          simpa using h
        subst h1
        exact ⟨fun p => rfl, [.harden pos src], by simp [Effect.isMutation]⟩
    · rcases r with _ | _
      · rw [flowInto_notRemovable b src pos w falling dr it hblk] at h
        obtain ⟨h1, -⟩ : w = w1 ∧ False = false := by simpa using h
        subst h1
        exact ⟨fun p => rfl, [], by simp⟩
      · exfalso
        simp only [flowInto, if_neg hg, hblk] at h
        simp [Block.liquidRemovable] at h
        split at h <;> (try split at h) <;> simp_all

/-- The early depth guard of `flowInto`, rewritten without the `newDepth`
conditional. -/
theorem flowInto_guardCond (b : LiquidData) (falling : Bool) :
    ((if falling = true then b.depth else b.depth - b.decay) ≤ 0 ∧ falling = false) ↔
      (falling = false ∧ b.depth - b.decay ≤ 0) := by
  cases falling <;> simp

/-! ### Concrete inputs used by witnesses and counterexamples -/

/-- The origin position. -/
def posZ : Pos3 := ⟨0, 0, 0⟩

/-- A horizontal neighbour of the origin. -/
def p10 : Pos3 := ⟨1, 0, 0⟩

/-- A world with no blocks stored: every position reads as air. -/
def wEmpty : World := ⟨[], []⟩

/-- Lava: depth 8 source, spread decay 2. -/
def bLava : LiquidData := ⟨8, false, 2, "lava"⟩

/-- A world with water next to the origin and lava at the origin. -/
def wWater : World := ⟨[(p10, .liquid ⟨4, false, 1, "water"⟩), (posZ, .liquid bLava)], []⟩

/-- A world holding one broken-capability block: liquid-removable, with
liquid drops, but not a `world.Item`. -/
def wBroke : World := ⟨[(p10, .solid true true false)], []⟩

/-- A liquid whose depth does not survive one decay step. -/
def bSpent : LiquidData := ⟨1, false, 1, "water"⟩

/-! ### Claim C1 -/

/-- C1 (amended): a non-source liquid with no sustaining neighbour performs
pure decay in one tick: the block at the ticked position is replaced with air
when `depth - 4 ≤ 0` and with `withDepth (depth - 2*decay) falling=false`
otherwise, and the tick ends immediately — the single `PlaceBlock` at the
ticked position is its only effect. (The spec's depth-3 scenario is corrected
by `claim_C1_cex`: `3 - 4 ≤ 0`, so a depth-3 liquid is removed on the first
tick.) -/
theorem claim_C1_decay (fuel : Nat) (b : LiquidData) (pos : Pos3) (w : World)
    (hs : source b = false) (ha : sourceAround b pos w = false) :
    tickLiquid fuel b pos w =
      .ok (w.placeBlock pos
        (if b.depth - 4 ≤ 0 then Block.air
         else .liquid (b.withDepth (b.depth - 2 * b.decay) false))) := by
  by_cases hd : b.depth - 4 ≤ 0 <;> simp [tickLiquid, hs, ha, hd]

/-- C1 counterexample: a depth-3, decay-1 liquid with no sustaining
neighbour is removed on the first tick (`3 - 4 ≤ 0`), not lowered to
depth 1 as the claim's scenario states. -/
theorem claim_C1_cex :
    tickLiquid 1 ⟨3, false, 1, "water"⟩ posZ wEmpty = .ok (wEmpty.placeBlock posZ .air) ∧
    (wEmpty.placeBlock posZ .air).blockAt posZ ≠
      .liquid (LiquidData.withDepth ⟨3, false, 1, "water"⟩ (3 - 2 * 1) false) :=
  ⟨rfl, by decide⟩

/-- C1 witness: a depth-7 liquid decays to 5, then to 3, and is removed on
the third tick. -/
theorem claim_C1_witness :
    source (⟨7, false, 1, "water"⟩ : LiquidData) = false ∧
    sourceAround ⟨7, false, 1, "water"⟩ posZ wEmpty = false ∧
    tickLiquid 1 ⟨7, false, 1, "water"⟩ posZ wEmpty =
      .ok (wEmpty.placeBlock posZ (.liquid ⟨5, false, 1, "water"⟩)) ∧
    tickLiquid 1 ⟨5, false, 1, "water"⟩ posZ wEmpty =
      .ok (wEmpty.placeBlock posZ (.liquid ⟨3, false, 1, "water"⟩)) ∧
    tickLiquid 1 ⟨3, false, 1, "water"⟩ posZ wEmpty =
      .ok (wEmpty.placeBlock posZ .air) :=
  ⟨by decide, by decide,
    (claim_C1_decay 1 ⟨7, false, 1, "water"⟩ posZ wEmpty (by decide) (by decide)).trans rfl,
    (claim_C1_decay 1 ⟨5, false, 1, "water"⟩ posZ wEmpty (by decide) (by decide)).trans rfl,
    (claim_C1_decay 1 ⟨3, false, 1, "water"⟩ posZ wEmpty (by decide) (by decide)).trans rfl⟩

/-! ### Claim C4 -/

/-- C4: `flowInto` fails exactly in three cases — the non-falling depth
guard, a different-type liquid at the target, and a non-removable non-liquid
target — every failure leaves all blocks unchanged and logs no
`PlaceBlock`/`BreakBlock`; on different-type liquid contact past the guard,
the existing liquid's harden capability is invoked with the source position
before the failure is returned. -/
theorem claim_C4_flow_failure (b : LiquidData) (src pos : Pos3) (w : World)
    (falling : Bool) :
    ((∃ w1, flowInto b src pos w falling = .ok (w1, false)) ↔
      ((falling = false ∧ b.depth - b.decay ≤ 0) ∨
       (∃ ex, w.blockAt pos = .liquid ex ∧ ex.kind ≠ b.kind) ∨
       (∃ d i, w.blockAt pos = .solid false d i))) ∧
    (∀ w1, flowInto b src pos w falling = .ok (w1, false) →
      (∀ p, w1.blockAt p = w.blockAt p) ∧
      ∃ es, w1.log = w.log ++ es ∧ ∀ e ∈ es, e.isMutation = false) ∧
    (¬(falling = false ∧ b.depth - b.decay ≤ 0) →
      ∀ ex, w.blockAt pos = .liquid ex → ex.kind ≠ b.kind →
        flowInto b src pos w falling = .ok (w.hardenEvent pos src, false)) := by
  refine ⟨⟨fun h => ?_, fun h => ?_⟩,
    fun w1 h => flowInto_false_noMutation b src pos w falling w1 h,
    fun hg ex hblk hk => flowInto_harden b src pos w falling ex hg hblk hk⟩
  · obtain ⟨w1, h⟩ := h
    exact flowInto_false_cases b src pos w falling w1 h
  · rcases h with ⟨hf, hd⟩ | ⟨ex, hblk, hk⟩ | ⟨d, i, hblk⟩
    · exact ⟨w, by subst hf; exact flowInto_guard b src pos w hd⟩
    · by_cases hg : falling = false ∧ b.depth - b.decay ≤ 0
      · exact ⟨w, by obtain ⟨hf, hd⟩ := hg; subst hf; exact flowInto_guard b src pos w hd⟩
      · exact ⟨w.hardenEvent pos src, flowInto_harden b src pos w falling ex hg hblk hk⟩
    · exact ⟨w, flowInto_notRemovable b src pos w falling d i hblk⟩

/-- C4 witness: lava flowing into a position holding water invokes water's
harden capability with the source position, returns failure, and the lava
block at the source position is unchanged. -/
theorem claim_C4_witness :
    flowInto bLava posZ p10 wWater false = .ok (wWater.hardenEvent p10 posZ, false) ∧
    (wWater.hardenEvent p10 posZ).blockAt posZ = .liquid bLava :=
  ⟨(claim_C4_flow_failure bLava posZ p10 wWater false).2.2 (by decide)
      ⟨4, false, 1, "water"⟩ (by decide) (by decide),
    by decide⟩

/-! ### Claim C9 -/

/-- `flowInto` aborts, and with the drops panic, exactly when the depth
guard passes (falling, or `depth - decay > 0`) and the target is a
non-liquid block registered liquid-removable with liquid drops that does
not implement `world.Item`; no other input makes `flowInto` abort. -/
theorem flowInto_error_iff (b : LiquidData) (src pos : Pos3) (w : World) (falling : Bool)
    (err : TickErr) :
    flowInto b src pos w falling = .error err ↔
      (err = .panicDrops ∧ ¬(falling = false ∧ b.depth - b.decay ≤ 0) ∧
        w.blockAt pos = .solid true true false) := by
  constructor
  · intro h
    by_cases hg : (if falling = true then b.depth else b.depth - b.decay) ≤ 0 ∧ falling = false
    · simp [flowInto, if_pos hg] at h
    · rcases hblk : w.blockAt pos with _ | ex | ⟨r, dr, it⟩
      · simp [flowInto, if_neg hg, hblk, Block.liquidRemovable, Block.hasLiquidDrops] at h
      · simp only [flowInto, if_neg hg, hblk] at h
        split at h <;> (try split at h) <;> (try split at h) <;> simp_all
      · simp only [flowInto, if_neg hg, hblk] at h
        have hg2 : ¬(falling = false ∧ b.depth - b.decay ≤ 0) :=
          (not_congr (flowInto_guardCond b falling)).mp hg
        rcases r with _ | _
        · simp [Block.liquidRemovable] at h
        · simp only [Block.liquidRemovable, Block.hasLiquidDrops, Block.isItem] at h
          rcases dr with _ | _ <;> rcases it with _ | _ <;> simp_all
  · rintro ⟨herr, hg, hblk⟩
    subst herr
    rw [flowInto, if_neg ((not_congr (flowInto_guardCond b falling)).mpr hg), hblk]
    simp [Block.liquidRemovable, Block.hasLiquidDrops, Block.isItem]

/-- C9 counterexample: a spent non-falling liquid aimed at a
broken-capability block (liquid-removable, drops, no `world.Item`) returns
ordinary failure through the depth guard instead of aborting, refuting the
claimed equivalence. -/
theorem claim_C9_cex :
    wBroke.blockAt p10 = .solid true true false ∧
    flowInto bSpent posZ p10 wBroke false = .ok (wBroke, false) :=
  ⟨by decide, rfl⟩

/-! ### Claim C5 -/

/-- One `sustainEntry` check holds exactly when the neighbour is not the one
below, holds a same-type liquid, and that liquid is directly above, a
source, or strictly deeper. -/
theorem sustainEntry_iff (b : LiquidData) (pos : Pos3) (w : World) (n : Pos3) :
    sustainEntry b pos w n = true ↔
      (n.y ≠ pos.y - 1 ∧ ∃ side, w.blockAt n = .liquid side ∧ side.kind = b.kind ∧
        (n.y = pos.y + 1 ∨ source side = true ∨ side.depth > b.depth)) := by
  unfold sustainEntry
  by_cases hy : n.y = pos.y - 1
  · simp [hy]
  · rw [if_neg hy]
    rcases hblk : w.blockAt n with _ | side | ⟨r, d, i⟩
    · simp [hy]
    · by_cases hk : side.kind = b.kind
      · by_cases hc : n.y = pos.y + 1 ∨ source side = true ∨ side.depth > b.depth
        · simp [hy, hk, hc]
        · simp [hy, hk, hc]
      · simp [hy, hk]
    · simp [hy]

/-- `sourceAround` holds exactly when an enumerated neighbour passes the
`sustainEntry` check. -/
theorem sourceAround_iff (b : LiquidData) (pos : Pos3) (w : World) :
    sourceAround b pos w = true ↔
      ∃ n ∈ pos.neighbours, n.y ≠ pos.y - 1 ∧ ∃ side, w.blockAt n = .liquid side ∧
        side.kind = b.kind ∧ (n.y = pos.y + 1 ∨ source side = true ∨ side.depth > b.depth) := by
  unfold sourceAround
  rw [List.any_eq_true]
  simp only [sustainEntry_iff]

/-- C5 (amended): the sustain check of the tick engine holds iff the liquid
is itself a source, or a same-type liquid that is a source or strictly
deeper is adjacent horizontally, or a same-type liquid of any depth sits
directly above; liquid directly below is ignored. (The claim required the
source-or-deeper condition also for the liquid above; `claim_C5_cex` refutes
that.) -/
theorem claim_C5_sustain (b : LiquidData) (pos : Pos3) (w : World) :
    (source b || sourceAround b pos w) = true ↔
      (source b = true ∨
       (∃ n ∈ pos.horizNeighbours, ∃ side, w.blockAt n = .liquid side ∧
          side.kind = b.kind ∧ (source side = true ∨ side.depth > b.depth)) ∨
       (∃ side, w.blockAt (above pos) = .liquid side ∧ side.kind = b.kind)) := by
  rw [Bool.or_eq_true, sourceAround_iff]
  constructor
  · rintro (hs | ⟨n, hn, hy, side, hblk, hk, hc⟩)
    · exact .inl hs
    · right
      simp only [Pos3.neighbours, List.mem_cons, List.not_mem_nil, or_false] at hn
      rcases hn with rfl | rfl | rfl | rfl | rfl | rfl
      · refine .inl ⟨_, by simp [Pos3.horizNeighbours], side, hblk, hk, ?_⟩
        rcases hc with hc | hc | hc
        · exact absurd hc (by simp)
        · exact .inl hc
        · exact .inr hc
      · refine .inl ⟨_, by simp [Pos3.horizNeighbours], side, hblk, hk, ?_⟩
        rcases hc with hc | hc | hc
        · exact absurd hc (by simp)
        · exact .inl hc
        · exact .inr hc
      · refine .inl ⟨_, by simp [Pos3.horizNeighbours], side, hblk, hk, ?_⟩
        rcases hc with hc | hc | hc
        · exact absurd hc (by simp)
        · exact .inl hc
        · exact .inr hc
      · refine .inl ⟨_, by simp [Pos3.horizNeighbours], side, hblk, hk, ?_⟩
        rcases hc with hc | hc | hc
        · exact absurd hc (by simp)
        · exact .inl hc
        · exact .inr hc
      · exact absurd rfl hy
      · exact .inr ⟨side, by simpa [above] using hblk, hk⟩
  · rintro (hs | ⟨n, hn, side, hblk, hk, hc⟩ | ⟨side, hblk, hk⟩)
    · exact .inl hs
    · right
      simp only [Pos3.horizNeighbours, List.mem_cons, List.not_mem_nil, or_false] at hn
      rcases hn with rfl | rfl | rfl | rfl <;>
        exact ⟨_, by simp [Pos3.neighbours], by simp; omega, side, hblk, hk, .inr hc⟩
    · right
      refine ⟨above pos, by simp [Pos3.neighbours, above], by simp [above]; omega,
        side, hblk, hk, .inl (by simp [above])⟩

/-- The sustain predicate exactly as claim C5 states it: a source itself, or
a same-type liquid that is a source or strictly deeper adjacent horizontally
or directly above. -/
def sustainSpecC5 (b : LiquidData) (pos : Pos3) (w : World) : Bool :=
  source b ||
    (pos.horizNeighbours ++ [above pos]).any fun n =>
      match w.blockAt n with
      | Block.liquid side =>
        if side.kind = b.kind then
          if source side = true ∨ side.depth > b.depth then true else false
        else false
      | _ => false

/-- C5 counterexample: a depth-5 liquid with a non-source depth-3 same-type
liquid directly above it is sustained by the code, although the claim's
predicate (source or strictly deeper required also above) rejects it. -/
theorem claim_C5_cex :
    (source ⟨5, false, 1, "water"⟩ ||
      sourceAround ⟨5, false, 1, "water"⟩ posZ ⟨[(⟨0, 1, 0⟩, .liquid ⟨3, false, 1, "water"⟩)], []⟩) = true ∧
    sustainSpecC5 ⟨5, false, 1, "water"⟩ posZ ⟨[(⟨0, 1, 0⟩, .liquid ⟨3, false, 1, "water"⟩)], []⟩ = false :=
  ⟨by decide, by decide⟩

/-! ### The search queue: characterisation lemmas -/

/-- A path has as many steps as the node that produced it has hops. -/
theorem LiquidNode.path_length (n : LiquidNode) (src : Pos3) :
    (n.path src).length = n.len := by
  simp [LiquidNode.path, LiquidNode.len]

/-- The four neighbours of a node are one hop longer than the node. -/
theorem LiquidNode.neighbours_len (n : LiquidNode) (decay : Int) :
    (n.neighbours decay).1.len = n.len + 1 ∧
    (n.neighbours decay).2.1.len = n.len + 1 ∧
    (n.neighbours decay).2.2.1.len = n.len + 1 ∧
    (n.neighbours decay).2.2.2.len = n.len + 1 := by
  simp [LiquidNode.neighbours, LiquidNode.len]

/-- The four neighbours of a node carry the node's depth lowered by the
passed decay. -/
theorem LiquidNode.neighbours_depth (n : LiquidNode) (decay : Int) :
    (n.neighbours decay).1.depth = n.depth - decay ∧
    (n.neighbours decay).2.1.depth = n.depth - decay ∧
    (n.neighbours decay).2.2.1.depth = n.depth - decay ∧
    (n.neighbours decay).2.2.2.depth = n.depth - decay := by
  simp [LiquidNode.neighbours]

/-- The three possible outcomes of `spreadNeighbour`: a completed path (queue
untouched), a plain discard, or an enqueue; completion and enqueue require
remaining depth and the shortest-path bound to admit the node. -/
theorem spreadNeighbour_char (b : LiquidData) (src : Pos3) (w : World)
    (n : LiquidNode) (q : LiquidQueue) :
    (spreadNeighbour b src w n q = (true, q) ∧
      (n.len : Int) ≤ q.shortestPath ∧ 0 < n.depth + 3) ∨
    spreadNeighbour b src w n q = (false, q) ∨
    (spreadNeighbour b src w n q = (false, { q with pending := q.pending ++ [n] }) ∧
      (n.len : Int) ≤ q.shortestPath ∧ 0 < n.depth + 3) := by
  unfold spreadNeighbour
  split_ifs with h1 h2 h3 h4
  · exact .inr (.inl rfl)
  · exact .inr (.inl rfl)
  · exact .inr (.inl rfl)
  · exact .inl ⟨rfl, le_of_not_lt h2, by omega⟩
  · exact .inr (.inr ⟨rfl, le_of_not_lt h2, by omega⟩)

/-- The three possible outcomes of `handleNeighbour`. -/
theorem handleNeighbour_char (b : LiquidData) (pos : Pos3) (w : World)
    (n : LiquidNode) (q : LiquidQueue) (paths : List LiquidPath) :
    (handleNeighbour b pos w n q paths =
        (⟨q.pending, (n.len : Int)⟩, paths ++ [n.path pos]) ∧
      (n.len : Int) ≤ q.shortestPath ∧ 0 < n.depth + 3) ∨
    handleNeighbour b pos w n q paths = (q, paths) ∨
    (handleNeighbour b pos w n q paths =
        ({ q with pending := q.pending ++ [n] }, paths) ∧
      (n.len : Int) ≤ q.shortestPath ∧ 0 < n.depth + 3) := by
  unfold handleNeighbour
  rcases spreadNeighbour_char b pos w n q with ⟨h, hlen, hd⟩ | h | ⟨h, hlen, hd⟩ <;> rw [h]
  · exact .inl ⟨rfl, hlen, hd⟩
  · exact .inr (.inl rfl)
  · exact .inr (.inr ⟨rfl, hlen, hd⟩)

/-! ### Claim C3: all returned paths are tied at the minimal length -/

/-- Adjacency of breadth-first queue entries: a later entry is never shorter
and at most one hop longer. -/
def nodeLe (a c : LiquidNode) : Prop := a.len ≤ c.len ∧ c.len ≤ a.len + 1

/-- The invariant maintained while the four neighbours of a dequeued front
node `h` are processed. -/
def LInv (h : LiquidNode) (q : LiquidQueue) (paths : List LiquidPath) : Prop :=
  (∀ m ∈ q.pending, h.len ≤ m.len ∧ m.len ≤ h.len + 1) ∧
  q.pending.Pairwise nodeLe ∧
  (∀ p ∈ paths, (p.length : Int) = q.shortestPath) ∧
  (paths ≠ [] → q.shortestPath ≤ (h.len : Int) + 1)

/-- The invariant of the search loop between iterations. -/
def SInv (q : LiquidQueue) (paths : List LiquidPath) : Prop :=
  q.pending.Pairwise nodeLe ∧
  (∀ p ∈ paths, (p.length : Int) = q.shortestPath) ∧
  (∀ m ∈ q.pending, paths ≠ [] → q.shortestPath ≤ (m.len : Int) + 1)

theorem LInv_of_SInv (h : LiquidNode) (rest : List LiquidNode) (s : Int)
    (paths : List LiquidPath) (hi : SInv ⟨h :: rest, s⟩ paths) :
    LInv h ⟨rest, s⟩ paths := by
  obtain ⟨hp, hl, hs⟩ := hi
  rw [List.pairwise_cons] at hp
  exact ⟨fun m hm => hp.1 m hm, hp.2, hl, fun hne => hs h (by simp) hne⟩

theorem SInv_of_LInv (h : LiquidNode) (q : LiquidQueue) (paths : List LiquidPath)
    (hi : LInv h q paths) : SInv q paths := by
  obtain ⟨h1, h2, h3, h4⟩ := hi
  refine ⟨h2, h3, fun m hm hne => ?_⟩
  have := (h1 m hm).1
  have := h4 hne
  omega

theorem handleNeighbour_LInv (b : LiquidData) (pos : Pos3) (w : World)
    (h n : LiquidNode) (q : LiquidQueue) (paths : List LiquidPath)
    (hn : n.len = h.len + 1) (hi : LInv h q paths) :
    LInv h (handleNeighbour b pos w n q paths).1 (handleNeighbour b pos w n q paths).2 := by
  obtain ⟨h1, h2, h3, h4⟩ := hi
  rcases handleNeighbour_char b pos w n q paths with ⟨he, hlen, -⟩ | he | ⟨he, hlen, -⟩ <;>
    rw [he]
  · refine ⟨h1, h2, ?_, fun _ => by simp; omega⟩
    intro p hp
    rcases List.mem_append.mp hp with hp | hp
    · have hne : paths ≠ [] := by rintro rfl; simp at hp
      have := h3 p hp
      have := h4 hne
      simp only [hn] at hlen ⊢
      push_cast at *
      omega
    · simp only [List.mem_singleton] at hp
      subst hp
      rw [LiquidNode.path_length]
  · exact ⟨h1, h2, h3, h4⟩
  · refine ⟨?_, ?_, h3, h4⟩
    · intro m hm
      rcases List.mem_append.mp hm with hm | hm
      · exact h1 m hm
      · simp only [List.mem_singleton] at hm
        subst hm
        omega
    · rw [List.pairwise_append]
      refine ⟨h2, by simp, fun a ha c hc => ?_⟩
      simp only [List.mem_singleton] at hc
      subst hc
      have := h1 a ha
      exact ⟨by omega, by omega⟩

theorem processNode_SInv (b : LiquidData) (pos : Pos3) (w : World)
    (h : LiquidNode) (q : LiquidQueue) (paths : List LiquidPath)
    (hi : LInv h q paths) :
    SInv (processNode b pos w h q paths).1 (processNode b pos w h q paths).2 := by
  obtain ⟨l1, l2, l3, l4⟩ := LiquidNode.neighbours_len h (b.decay * 2)
  unfold processNode
  exact SInv_of_LInv h _ _
    (handleNeighbour_LInv b pos w h _ _ _ l4
      (handleNeighbour_LInv b pos w h _ _ _ l3
        (handleNeighbour_LInv b pos w h _ _ _ l2
          (handleNeighbour_LInv b pos w h _ _ _ l1 hi))))

theorem runPaths_SInv (b : LiquidData) (pos : Pos3) (w : World) :
    ∀ (fuel : Nat) (q : LiquidQueue) (paths out : List LiquidPath),
      SInv q paths → runPaths b pos w fuel q paths = .ok out →
      ∀ p ∈ out, ∀ p2 ∈ out, p.length = p2.length := by
  intro fuel
  induction fuel with
  | zero => intro q paths out _ h; exact absurd h (by simp [runPaths])
  | succ fuel ih =>
    intro q paths out hi h
    rcases hq : q.pending with _ | ⟨node, rest⟩
    · simp only [runPaths, hq, Except.ok.injEq] at h
      subst h
      intro p hp p2 hp2
      have e1 := hi.2.1 p hp
      have e2 := hi.2.1 p2 hp2
      omega
    · simp only [runPaths, hq] at h
      have hq2 : q = ⟨node :: rest, q.shortestPath⟩ := by
        cases q; simp_all
      refine ih _ _ out (processNode_SInv b pos w node ⟨rest, q.shortestPath⟩ paths ?_) h
      exact LInv_of_SInv node rest q.shortestPath paths (hq2 ▸ hi)

/-- C3: every call of the path finder returns only paths whose length is at
most the length of every other returned path — all returned paths are tied
at the minimal length, and no path found after the bound tightened exceeds
it. -/
theorem claim_C3_shortest (fuel : Nat) (b : LiquidData) (pos : Pos3) (w : World)
    (paths : List LiquidPath)
    (h : calculateLiquidPaths fuel b pos w = .ok paths) :
    ∀ p ∈ paths, ∀ p2 ∈ paths, p.length ≤ p2.length := by
  intro p hp p2 hp2
  have := runPaths_SInv b pos w fuel ⟨[⟨pos.x, pos.z, b.depth, []⟩], 127⟩ [] paths
    ⟨by simp, by simp, by simp⟩ h p hp p2 hp2
  omega

/-- A liquid source. -/
def bSrcW : LiquidData := ⟨8, false, 1, "water"⟩

/-- A world whose only block is a non-removable solid directly below the
origin, so a liquid at the origin cannot fall but all four horizontal
neighbours offer a drop. -/
def wSolidBelow : World := ⟨[(⟨0, -1, 0⟩, .solid false false false)], []⟩

/-- C3 witness: the source over a plugged hole finds the four length-1 drop
paths, visibly tied at the minimum. -/
theorem claim_C3_witness :
    calculateLiquidPaths 3 bSrcW posZ wSolidBelow =
      .ok [[⟨-1, 0, 0⟩], [⟨1, 0, 0⟩], [⟨0, 0, -1⟩], [⟨0, 0, 1⟩]] ∧
    ∀ p ∈ ([[⟨-1, 0, 0⟩], [⟨1, 0, 0⟩], [⟨0, 0, -1⟩], [⟨0, 0, 1⟩]] : List LiquidPath),
      ∀ p2 ∈ ([[⟨-1, 0, 0⟩], [⟨1, 0, 0⟩], [⟨0, 0, -1⟩], [⟨0, 0, 1⟩]] : List LiquidPath),
        p.length ≤ p2.length :=
  ⟨rfl, claim_C3_shortest 3 bSrcW posZ wSolidBelow _ rfl⟩

/-! ### Claim C8: termination of the path search -/

/-- Termination measure of one pending node: geometric in the remaining
depth above the discard cutoff. -/
def nodeMeasure (n : LiquidNode) : Nat := 5 ^ (n.depth + 3).toNat

/-- Termination measure of the queue: the summed measures of pending nodes. -/
def queueMeasure (q : LiquidQueue) : Nat := (q.pending.map nodeMeasure).sum

theorem handleNeighbour_measure (b : LiquidData) (pos : Pos3) (w : World)
    (n : LiquidNode) (q : LiquidQueue) (paths : List LiquidPath) :
    queueMeasure (handleNeighbour b pos w n q paths).1 ≤
      queueMeasure q + (if 0 < n.depth + 3 then 5 ^ (n.depth + 3).toNat else 0) := by
  rcases handleNeighbour_char b pos w n q paths with ⟨he, -, hd⟩ | he | ⟨he, -, hd⟩ <;>
    rw [he]
  · simp [queueMeasure]
  · exact Nat.le_add_right _ _
  · simp [queueMeasure, nodeMeasure, hd]

theorem processNode_measure (b : LiquidData) (pos : Pos3) (w : World)
    (node : LiquidNode) (q : LiquidQueue) (paths : List LiquidPath)
    (hdec : 1 ≤ b.decay) :
    queueMeasure (processNode b pos w node q paths).1 < queueMeasure q + nodeMeasure node := by
  have hgen : ∀ m : LiquidNode, m.depth = node.depth - b.decay * 2 →
      ∀ (q1 : LiquidQueue) (ps : List LiquidPath),
        queueMeasure (handleNeighbour b pos w m q1 ps).1 ≤ queueMeasure q1 +
          (if 0 < node.depth - b.decay * 2 + 3
           then 5 ^ (node.depth - b.decay * 2 + 3).toNat else 0) := by
    intro m hm q1 ps
    have h := handleNeighbour_measure b pos w m q1 ps
    rw [hm] at h
    exact h
  have hlt : (if 0 < node.depth - b.decay * 2 + 3
      then 5 ^ (node.depth - b.decay * 2 + 3).toNat else 0) * 4 < nodeMeasure node := by
    by_cases hc : 0 < node.depth - b.decay * 2 + 3
    · rw [if_pos hc]
      have h1 : (1 : ℕ) ≤ 5 ^ (node.depth - b.decay * 2 + 3).toNat :=
        Nat.one_le_pow _ _ (by norm_num)
      have hexp : (node.depth - b.decay * 2 + 3).toNat + 2 ≤ (node.depth + 3).toNat := by
        omega
      have hpow : 5 ^ ((node.depth - b.decay * 2 + 3).toNat + 2) ≤
          5 ^ (node.depth + 3).toNat := Nat.pow_le_pow_right (by norm_num) hexp
      rw [pow_add] at hpow
      unfold nodeMeasure
      omega
    · rw [if_neg hc]
      exact Nat.pos_pow_of_pos _ (by norm_num)
  obtain ⟨d1, d2, d3, d4⟩ := LiquidNode.neighbours_depth node (b.decay * 2)
  simp only [processNode]
  have e1 := hgen _ d1 q paths
  have e2 := hgen _ d2 (handleNeighbour b pos w (node.neighbours (b.decay * 2)).1 q paths).1
    (handleNeighbour b pos w (node.neighbours (b.decay * 2)).1 q paths).2
  have e3 := hgen _ d3
    (handleNeighbour b pos w (node.neighbours (b.decay * 2)).2.1
      (handleNeighbour b pos w (node.neighbours (b.decay * 2)).1 q paths).1
      (handleNeighbour b pos w (node.neighbours (b.decay * 2)).1 q paths).2).1
    (handleNeighbour b pos w (node.neighbours (b.decay * 2)).2.1
      (handleNeighbour b pos w (node.neighbours (b.decay * 2)).1 q paths).1
      (handleNeighbour b pos w (node.neighbours (b.decay * 2)).1 q paths).2).2
  have e4 := hgen _ d4
    (handleNeighbour b pos w (node.neighbours (b.decay * 2)).2.2.1
      (handleNeighbour b pos w (node.neighbours (b.decay * 2)).2.1
        (handleNeighbour b pos w (node.neighbours (b.decay * 2)).1 q paths).1
        (handleNeighbour b pos w (node.neighbours (b.decay * 2)).1 q paths).2).1
      (handleNeighbour b pos w (node.neighbours (b.decay * 2)).2.1
        (handleNeighbour b pos w (node.neighbours (b.decay * 2)).1 q paths).1
        (handleNeighbour b pos w (node.neighbours (b.decay * 2)).1 q paths).2).2).1
    (handleNeighbour b pos w (node.neighbours (b.decay * 2)).2.2.1
      (handleNeighbour b pos w (node.neighbours (b.decay * 2)).2.1
        (handleNeighbour b pos w (node.neighbours (b.decay * 2)).1 q paths).1
        (handleNeighbour b pos w (node.neighbours (b.decay * 2)).1 q paths).2).1
      (handleNeighbour b pos w (node.neighbours (b.decay * 2)).2.1
        (handleNeighbour b pos w (node.neighbours (b.decay * 2)).1 q paths).1
        (handleNeighbour b pos w (node.neighbours (b.decay * 2)).1 q paths).2).2).2
  omega

theorem runPaths_term (b : LiquidData) (pos : Pos3) (w : World) (hdec : 1 ≤ b.decay) :
    ∀ (fuel : Nat) (q : LiquidQueue) (paths : List LiquidPath),
      queueMeasure q < fuel → ∃ out, runPaths b pos w fuel q paths = .ok out := by
  intro fuel
  induction fuel with
  | zero => intro q paths h; omega
  | succ fuel ih =>
    intro q paths h
    rcases hq : q.pending with _ | ⟨node, rest⟩
    · exact ⟨paths, by simp [runPaths, hq]⟩
    · have hsplit : queueMeasure q = nodeMeasure node + queueMeasure ⟨rest, q.shortestPath⟩ := by
        simp [queueMeasure, hq]
      have hlt := processNode_measure b pos w node ⟨rest, q.shortestPath⟩ paths hdec
      obtain ⟨out, hout⟩ := ih (processNode b pos w node ⟨rest, q.shortestPath⟩ paths).1
        (processNode b pos w node ⟨rest, q.shortestPath⟩ paths).2 (by omega)
      refine ⟨out, ?_⟩
      simp only [runPaths, hq]
      exact hout

/-- C8: for every liquid with decay at least 1, the path-finding search
terminates — every hop lowers a node's remaining depth by the doubled decay
and exhausted nodes are discarded, so some finite fuel makes the loop
consume its queue and return. -/
theorem claim_C8_terminates (b : LiquidData) (pos : Pos3) (w : World)
    (hdec : (1 : Int) ≤ b.decay) :
    ∃ fuel paths, calculateLiquidPaths fuel b pos w = .ok paths := by
  obtain ⟨out, h⟩ := runPaths_term b pos w hdec
    (queueMeasure ⟨[⟨pos.x, pos.z, b.depth, []⟩], 127⟩ + 1)
    ⟨[⟨pos.x, pos.z, b.depth, []⟩], 127⟩ [] (by omega)
  exact ⟨_, out, h⟩

/-- C8 witness: the search for a decay-1 source in the empty world
terminates. -/
theorem claim_C8_witness :
    (1 : Int) ≤ bSrcW.decay ∧
    ∃ fuel paths, calculateLiquidPaths fuel bSrcW posZ wEmpty = .ok paths :=
  ⟨by decide, claim_C8_terminates bSrcW posZ wEmpty (by decide)⟩

/-! ### Frame lemmas: which positions a flow can touch -/

theorem headD_append_left {α : Type} (l l2 : List α) (d : α) (h : l ≠ []) :
    (l ++ l2).headD d = l.headD d := by
  cases l with
  | nil => exact absurd rfl h
  | cons a t => rfl

/-- Branch equation: the early guard of `flowInto`. -/
theorem flowInto_guardEq (b : LiquidData) (src pos : Pos3) (w : World) (falling : Bool)
    (hg : (if falling = true then b.depth else b.depth - b.decay) ≤ 0 ∧ falling = false) :
    flowInto b src pos w falling = .ok (w, false) := by
  simp only [flowInto, if_pos hg]

/-- Branch equation: `flowInto` onto an existing liquid. -/
theorem flowInto_liquidEq (b : LiquidData) (src pos : Pos3) (w : World) (falling : Bool)
    (ex : LiquidData)
    (hg : ¬((if falling = true then b.depth else b.depth - b.decay) ≤ 0 ∧ falling = false))
    (hblk : w.blockAt pos = .liquid ex) :
    flowInto b src pos w falling =
      (if ex.kind = b.kind then
        (if ex.depth ≥ (if falling = true then b.depth else b.depth - b.decay) ∨
            ex.falling = true then .ok (w, true)
         else .ok (w.placeBlock pos (.liquid (b.withDepth
            (if falling = true then b.depth else b.depth - b.decay) falling)), true))
       else .ok (w.hardenEvent pos src, false)) := by
  simp only [flowInto, if_neg hg, hblk]

/-- Branch equation: `flowInto` into an empty position. -/
theorem flowInto_airEq (b : LiquidData) (src pos : Pos3) (w : World) (falling : Bool)
    (hg : ¬((if falling = true then b.depth else b.depth - b.decay) ≤ 0 ∧ falling = false))
    (hblk : w.blockAt pos = .air) :
    flowInto b src pos w falling =
      .ok (w.placeBlock pos (.liquid (b.withDepth
        (if falling = true then b.depth else b.depth - b.decay) falling)), true) := by
  simp only [flowInto, if_neg hg, hblk]
  simp [Block.liquidRemovable, Block.hasLiquidDrops, Block.isItem]

/-- Branch equation: `flowInto` onto some other block. -/
theorem flowInto_solidEq (b : LiquidData) (src pos : Pos3) (w : World) (falling : Bool)
    (re dr it : Bool)
    (hg : ¬((if falling = true then b.depth else b.depth - b.decay) ≤ 0 ∧ falling = false))
    (hblk : w.blockAt pos = .solid re dr it) :
    flowInto b src pos w falling =
      (if re = false then .ok (w, false)
       else if dr = true ∧ it = false then .error .panicDrops
       else .ok ((w.breakBlock pos).placeBlock pos (.liquid (b.withDepth
          (if falling = true then b.depth else b.depth - b.decay) falling)), true)) := by
  simp only [flowInto, if_neg hg, hblk]
  rcases re with _ | _ <;> rcases dr with _ | _ <;> rcases it with _ | _ <;>
    simp [Block.liquidRemovable, Block.hasLiquidDrops, Block.isItem]

/-- Every effect of one `flowInto` call targets the flowed-into position, and
every other position keeps its block. -/
theorem flowInto_frame (b : LiquidData) (src tgt : Pos3) (w : World) (falling : Bool)
    (w1 : World) (r : Bool)
    (h : flowInto b src tgt w falling = .ok (w1, r)) :
    (∀ p, p ≠ tgt → w1.blockAt p = w.blockAt p) ∧
    ∃ es, w1.log = w.log ++ es ∧ ∀ e ∈ es, e.target = tgt := by
  by_cases hg : (if falling = true then b.depth else b.depth - b.decay) ≤ 0 ∧ falling = false
  · rw [flowInto_guardEq b src tgt w falling hg] at h
    obtain ⟨rfl, -⟩ := Prod.mk.inj (Except.ok.inj h)
    exact ⟨fun p _ => rfl, [], by simp⟩
  · rcases hblk : w.blockAt tgt with _ | ex | ⟨re, dr, it⟩
    · rw [flowInto_airEq b src tgt w falling hg hblk] at h
      obtain ⟨rfl, -⟩ := Prod.mk.inj (Except.ok.inj h)
      exact ⟨fun p hp => World.blockAt_placeBlock_ne w tgt p _ hp,
        [.place tgt (Block.liquid (b.withDepth (if falling = true then b.depth else b.depth - b.decay) falling))],
        by simp, by simp [Effect.target]⟩
    · rw [flowInto_liquidEq b src tgt w falling ex hg hblk] at h
      by_cases hk : ex.kind = b.kind
      · rw [if_pos hk] at h
        by_cases hsat : ex.depth ≥ (if falling = true then b.depth else b.depth - b.decay) ∨
            ex.falling = true
        · rw [if_pos hsat] at h
          obtain ⟨rfl, -⟩ := Prod.mk.inj (Except.ok.inj h)
          exact ⟨fun p _ => rfl, [], by simp⟩
        · rw [if_neg hsat] at h
          obtain ⟨rfl, -⟩ := Prod.mk.inj (Except.ok.inj h)
          exact ⟨fun p hp => World.blockAt_placeBlock_ne w tgt p _ hp,
            [.place tgt (Block.liquid (b.withDepth (if falling = true then b.depth else b.depth - b.decay) falling))],
            by simp, by simp [Effect.target]⟩
      · rw [if_neg hk] at h
        obtain ⟨rfl, -⟩ := Prod.mk.inj (Except.ok.inj h)
        exact ⟨fun p _ => rfl, [.harden tgt src], by simp, by simp [Effect.target]⟩
    · rw [flowInto_solidEq b src tgt w falling re dr it hg hblk] at h
      by_cases hre : re = false
      · rw [if_pos hre] at h
        obtain ⟨rfl, -⟩ := Prod.mk.inj (Except.ok.inj h)
        exact ⟨fun p _ => rfl, [], by simp⟩
      · rw [if_neg hre] at h
        by_cases hdrop : dr = true ∧ it = false
        · rw [if_pos hdrop] at h
          cases h
        · rw [if_neg hdrop] at h
          obtain ⟨rfl, -⟩ := Prod.mk.inj (Except.ok.inj h)
          refine ⟨fun p hp => ?_,
            [.brk tgt, .place tgt (Block.liquid (b.withDepth (if falling = true then b.depth else b.depth - b.decay) falling))],
            by simp, by simp [Effect.target]⟩
          rw [World.blockAt_placeBlock_ne _ tgt p _ hp, World.blockAt_breakBlock_ne w tgt p hp]

/-- Every effect of a sequence of flows from one source targets one of the
listed positions, and every position off the list keeps its block. -/
theorem flowSeq_frame (b : LiquidData) (src : Pos3) (targets : List Pos3) :
    ∀ (w : World) (falling : Bool) (w1 : World),
      flowSeq b src targets w falling = .ok w1 →
      (∀ p, p ∉ targets → w1.blockAt p = w.blockAt p) ∧
      ∃ es, w1.log = w.log ++ es ∧ ∀ e ∈ es, e.target ∈ targets := by
  induction targets with
  | nil =>
    intro w falling w1 h
    obtain rfl : w = w1 := by simpa [flowSeq] using h
    exact ⟨fun p _ => rfl, [], by simp⟩
  | cons t ts ih =>
    intro w falling w1 h
    simp only [flowSeq] at h
    cases hf : flowInto b src t w falling with
    | error e => rw [hf] at h; cases h
    | ok rr =>
      rw [hf] at h
      obtain ⟨hb1, es1, hl1, ht1⟩ := flowInto_frame b src t w falling rr.1 rr.2
        (by rw [hf])
      obtain ⟨hb2, es2, hl2, ht2⟩ := ih rr.1 falling w1 h
      refine ⟨fun p hp => ?_, es1 ++ es2, ?_, ?_⟩
      · have hpt : p ≠ t := fun he => hp (he ▸ List.mem_cons_self t ts)
        have hpts : p ∉ ts := fun he => hp (List.mem_cons_of_mem t he)
        rw [hb2 p hpts, hb1 p hpt]
      · rw [hl2, hl1, List.append_assoc]
      · intro e he
        rcases List.mem_append.mp he with he | he
        · rw [ht1 e he]; exact List.mem_cons_self t ts
        · exact List.mem_cons_of_mem t (ht2 e he)

/-- `flowPaths` is the sequential flow into the first steps of the paths not
longer than the bound. -/
theorem flowPaths_eq_flowSeq (b : LiquidData) (pos : Pos3) (paths : List LiquidPath) :
    ∀ (w : World) (m : Nat),
      flowPaths b pos w paths m =
        flowSeq b pos ((paths.filter fun p => decide (p.length ≤ m)).map
          fun p => p.headD ⟨0, 0, 0⟩) w false := by
  induction paths with
  | nil => intro w m; rfl
  | cons p ps ih =>
    intro w m
    by_cases hp : p.length ≤ m
    · simp only [flowPaths, if_pos hp, List.filter_cons, decide_eq_true hp, List.map_cons,
        flowSeq]
      cases flowInto b pos (p.headD ⟨0, 0, 0⟩) w false with
      | error e => rfl
      | ok rr => exact ih rr.1 m
    · simp only [flowPaths, if_neg hp, List.filter_cons]
      rw [decide_eq_false hp]
      exact ih w m

/-- The neighbours at the same `y` level are exactly the four horizontal
neighbours. -/
theorem neighbours_filter_y (pos : Pos3) :
    (pos.neighbours.filter fun n => decide (n.y = pos.y)) = pos.horizNeighbours := by
  simp [Pos3.neighbours, Pos3.horizNeighbours, List.filter_cons,
    show pos.y - 1 ≠ pos.y by omega, show pos.y + 1 ≠ pos.y by omega]

/-! ### Claim C10: effect targets of a sustained tick -/

/-- A child node's path is its parent's path extended with the child's own
position. -/
theorem LiquidNode.path_child (h n : LiquidNode) (src : Pos3)
    (hc : n.chain = (h.x, h.z) :: h.chain) :
    n.path src = h.path src ++ [⟨n.x, src.y, n.z⟩] := by
  simp [LiquidNode.path, hc, List.dropLast_cons₂]

/-- The root of the search tree produces the empty path. -/
theorem LiquidNode.path_root (n : LiquidNode) (src : Pos3) (hc : n.chain = []) :
    n.path src = [] := by
  simp [LiquidNode.path, hc]

/-- A node reachable in the search from the root at `pos`: either the root
itself, or a node whose path starts at one of the four horizontal
neighbours of `pos`. -/
def nodeFromRoot (pos : Pos3) (n : LiquidNode) : Prop :=
  (n.chain = [] ∧ n.x = pos.x ∧ n.z = pos.z) ∨
  (n.chain ≠ [] ∧ (n.path pos).headD ⟨0, 0, 0⟩ ∈ pos.horizNeighbours)

/-- The path of a horizontal child of a search-reachable node starts at a
horizontal neighbour of the root. -/
theorem child_head_mem (pos : Pos3) (h n : LiquidNode)
    (hq : nodeFromRoot pos h)
    (hc : n.chain = (h.x, h.z) :: h.chain)
    (hoff : (n.x = h.x - 1 ∧ n.z = h.z) ∨ (n.x = h.x + 1 ∧ n.z = h.z) ∨
        (n.x = h.x ∧ n.z = h.z - 1) ∨ (n.x = h.x ∧ n.z = h.z + 1)) :
    (n.path pos).headD ⟨0, 0, 0⟩ ∈ pos.horizNeighbours := by
  rw [LiquidNode.path_child h n pos hc]
  rcases hq with ⟨hch, hx, hz⟩ | ⟨hch, hmem⟩
  · rw [LiquidNode.path_root h pos hch, List.nil_append]
    rcases hoff with ⟨h1, h2⟩ | ⟨h1, h2⟩ | ⟨h1, h2⟩ | ⟨h1, h2⟩ <;>
      simp [Pos3.horizNeighbours, h1, h2, hx, hz]
  · have hne : h.path pos ≠ [] := by
      intro he
      apply hch
      have hl := LiquidNode.path_length h pos
      rw [he] at hl
      have : h.chain.length = 0 := by simpa [LiquidNode.len] using hl.symm
      exact List.length_eq_zero.mp this
    rw [headD_append_left _ _ _ hne]
    exact hmem

/-- Chains of the four neighbours of a node. -/
theorem LiquidNode.neighbours_chain (n : LiquidNode) (decay : Int) :
    (n.neighbours decay).1.chain = (n.x, n.z) :: n.chain ∧
    (n.neighbours decay).2.1.chain = (n.x, n.z) :: n.chain ∧
    (n.neighbours decay).2.2.1.chain = (n.x, n.z) :: n.chain ∧
    (n.neighbours decay).2.2.2.chain = (n.x, n.z) :: n.chain := by
  simp [LiquidNode.neighbours]

/-- Coordinates of the four neighbours of a node. -/
theorem LiquidNode.neighbours_xz (n : LiquidNode) (decay : Int) :
    ((n.neighbours decay).1.x = n.x - 1 ∧ (n.neighbours decay).1.z = n.z) ∧
    ((n.neighbours decay).2.1.x = n.x + 1 ∧ (n.neighbours decay).2.1.z = n.z) ∧
    ((n.neighbours decay).2.2.1.x = n.x ∧ (n.neighbours decay).2.2.1.z = n.z - 1) ∧
    ((n.neighbours decay).2.2.2.x = n.x ∧ (n.neighbours decay).2.2.2.z = n.z + 1) := by
  simp [LiquidNode.neighbours]

/-- The reachability invariant of the search loop. -/
def HInv (pos : Pos3) (q : LiquidQueue) (paths : List LiquidPath) : Prop :=
  (∀ n ∈ q.pending, nodeFromRoot pos n) ∧
  (∀ p ∈ paths, p.headD ⟨0, 0, 0⟩ ∈ pos.horizNeighbours)

theorem handleNeighbour_HInv (b : LiquidData) (pos : Pos3) (w : World)
    (h n : LiquidNode) (q : LiquidQueue) (paths : List LiquidPath)
    (hq : nodeFromRoot pos h)
    (hc : n.chain = (h.x, h.z) :: h.chain)
    (hoff : (n.x = h.x - 1 ∧ n.z = h.z) ∨ (n.x = h.x + 1 ∧ n.z = h.z) ∨
        (n.x = h.x ∧ n.z = h.z - 1) ∨ (n.x = h.x ∧ n.z = h.z + 1))
    (hi : HInv pos q paths) :
    HInv pos (handleNeighbour b pos w n q paths).1 (handleNeighbour b pos w n q paths).2 := by
  have hmem := child_head_mem pos h n hq hc hoff
  obtain ⟨h1, h2⟩ := hi
  rcases handleNeighbour_char b pos w n q paths with ⟨he, -, -⟩ | he | ⟨he, -, -⟩ <;> rw [he]
  · refine ⟨h1, fun p hp => ?_⟩
    rcases List.mem_append.mp hp with hp | hp
    · exact h2 p hp
    · simp only [List.mem_singleton] at hp
      subst hp
      exact hmem
  · exact ⟨h1, h2⟩
  · refine ⟨fun m hm => ?_, h2⟩
    rcases List.mem_append.mp hm with hm | hm
    · exact h1 m hm
    · simp only [List.mem_singleton] at hm
      subst hm
      exact .inr ⟨by simp [hc], hmem⟩

theorem processNode_HInv (b : LiquidData) (pos : Pos3) (w : World)
    (node : LiquidNode) (q : LiquidQueue) (paths : List LiquidPath)
    (hq : nodeFromRoot pos node) (hi : HInv pos q paths) :
    HInv pos (processNode b pos w node q paths).1 (processNode b pos w node q paths).2 := by
  obtain ⟨c1, c2, c3, c4⟩ := LiquidNode.neighbours_chain node (b.decay * 2)
  obtain ⟨x1, x2, x3, x4⟩ := LiquidNode.neighbours_xz node (b.decay * 2)
  unfold processNode
  exact handleNeighbour_HInv b pos w node _ _ _ hq c4 (.inr (.inr (.inr x4)))
    (handleNeighbour_HInv b pos w node _ _ _ hq c3 (.inr (.inr (.inl x3)))
      (handleNeighbour_HInv b pos w node _ _ _ hq c2 (.inr (.inl x2))
        (handleNeighbour_HInv b pos w node _ _ _ hq c1 (.inl x1) hi)))

theorem runPaths_HInv (b : LiquidData) (pos : Pos3) (w : World) :
    ∀ (fuel : Nat) (q : LiquidQueue) (paths out : List LiquidPath),
      HInv pos q paths → runPaths b pos w fuel q paths = .ok out →
      ∀ p ∈ out, p.headD ⟨0, 0, 0⟩ ∈ pos.horizNeighbours := by
  intro fuel
  induction fuel with
  | zero => intro q paths out _ h; exact absurd h (by simp [runPaths])
  | succ fuel ih =>
    intro q paths out hi h
    rcases hq : q.pending with _ | ⟨node, rest⟩
    · simp only [runPaths, hq, Except.ok.injEq] at h
      subst h
      exact hi.2
    · simp only [runPaths, hq] at h
      have hnode : nodeFromRoot pos node := hi.1 node (by rw [hq]; exact List.mem_cons_self _ _)
      have hrest : HInv pos ⟨rest, q.shortestPath⟩ paths :=
        ⟨fun m hm => hi.1 m (by rw [hq]; exact List.mem_cons_of_mem _ hm), hi.2⟩
      exact ih _ _ out (processNode_HInv b pos w node ⟨rest, q.shortestPath⟩ paths hnode hrest) h

/-- Every path returned by `calculateLiquidPaths` starts at a horizontal
neighbour of the searched position. -/
theorem calculatePaths_heads (fuel : Nat) (b : LiquidData) (pos : Pos3) (w : World)
    (paths : List LiquidPath)
    (h : calculateLiquidPaths fuel b pos w = .ok paths) :
    ∀ p ∈ paths, p.headD ⟨0, 0, 0⟩ ∈ pos.horizNeighbours :=
  runPaths_HInv b pos w fuel _ [] paths
    ⟨fun n hn => by
      simp only [List.mem_singleton] at hn
      subst hn
      exact .inl ⟨rfl, rfl, rfl⟩, by simp⟩ h

/-- The falling step touches at most the position directly below. -/
theorem tickFall_frame (b : LiquidData) (pos : Pos3) (w : World) (cfb : Bool)
    (b2 : LiquidData) (w2 : World)
    (h : tickFall b pos w cfb = .ok (b2, w2)) :
    (∀ p, p ≠ below pos → w2.blockAt p = w.blockAt p) ∧
    ∃ es, w2.log = w.log ++ es ∧ ∀ e ∈ es, e.target = below pos := by
  unfold tickFall at h
  split_ifs at h with h1 h2
  · obtain ⟨-, rfl⟩ := Prod.mk.inj (Except.ok.inj h)
    exact ⟨fun p _ => rfl, [], by simp⟩
  · cases hf : flowInto (b.withDepth 8 true) pos (below pos) w true with
    | error e => rw [hf] at h; cases h
    | ok rr =>
      rw [hf] at h
      obtain ⟨-, rfl⟩ := Prod.mk.inj (Except.ok.inj h)
      exact flowInto_frame _ pos (below pos) w true rr.1 rr.2 (by rw [hf])
  · obtain ⟨-, rfl⟩ := Prod.mk.inj (Except.ok.inj h)
    exact ⟨fun p _ => rfl, [], by simp⟩

/-- The lateral phase touches at most the four horizontal neighbours. -/
theorem tickSpread_frame (fuel : Nat) (b2 : LiquidData) (pos : Pos3) (w2 : World)
    (cfb : Bool) (w1 : World)
    (h : tickSpread fuel b2 pos w2 cfb = .ok w1) :
    (∀ p, p ∉ pos.horizNeighbours → w1.blockAt p = w2.blockAt p) ∧
    ∃ es, w1.log = w2.log ++ es ∧ ∀ e ∈ es, e.target ∈ pos.horizNeighbours := by
  unfold tickSpread at h
  split_ifs at h with h1 h2
  · obtain rfl := Except.ok.inj h
    exact ⟨fun p _ => rfl, [], by simp⟩
  · cases hp : calculateLiquidPaths fuel b2 pos w2 with
    | error e => rw [hp] at h; simp at h
    | ok paths =>
      rw [hp] at h
      replace h : (if paths = [] then spreadOutwards b2 pos w2
          else flowPaths b2 pos w2 paths (paths.headD []).length) = .ok w1 := h
      by_cases hemp : paths = []
      · rw [if_pos hemp] at h
        unfold spreadOutwards at h
        rw [neighbours_filter_y] at h
        exact flowSeq_frame b2 pos pos.horizNeighbours w2 false w1 h
      · rw [if_neg hemp] at h
        rw [flowPaths_eq_flowSeq] at h
        have hsub : ∀ t ∈ ((paths.filter fun p => decide (p.length ≤ (paths.headD []).length)).map
            fun p => p.headD ⟨0, 0, 0⟩), t ∈ pos.horizNeighbours := by
          intro t ht
          simp only [List.mem_map, List.mem_filter] at ht
          obtain ⟨p, ⟨hp1, -⟩, rfl⟩ := ht
          exact calculatePaths_heads fuel b2 pos w2 paths hp p hp1
        obtain ⟨hb, es, hl, ht⟩ := flowSeq_frame b2 pos _ w2 false w1 h
        exact ⟨fun p hpm => hb p fun hin => hpm (hsub p hin), es, hl,
          fun e he => hsub _ (ht e he)⟩
  · obtain rfl := Except.ok.inj h
    exact ⟨fun p _ => rfl, [], by simp⟩

/-- A position is distinct from the position directly below itself. -/
theorem pos_ne_below (pos : Pos3) : pos ≠ below pos := by
  rcases pos with ⟨px, py, pz⟩
  intro he
  simp only [below, Pos3.mk.injEq] at he
  omega

/-- A position is not one of its own horizontal neighbours. -/
theorem pos_not_mem_horiz (pos : Pos3) : pos ∉ pos.horizNeighbours := by
  rcases pos with ⟨px, py, pz⟩
  simp only [Pos3.horizNeighbours, List.mem_cons, List.not_mem_nil, or_false, Pos3.mk.injEq]
  omega

/-- C10: for every sustained liquid, a tick issues `PlaceBlock`/`BreakBlock`
only at the position directly below or at a horizontal neighbour at the same
`y` — never at the ticked position, whose block remains unchanged outside
the decay branch. -/
theorem claim_C10_frame (fuel : Nat) (b : LiquidData) (pos : Pos3) (w w1 : World)
    (hsus : source b = true ∨ sourceAround b pos w = true)
    (h : tickLiquid fuel b pos w = .ok w1) :
    (∃ es, w1.log = w.log ++ es ∧ ∀ e ∈ es, e.isMutation = true →
        (e.target = below pos ∨ e.target ∈ pos.horizNeighbours)) ∧
    w1.blockAt pos = w.blockAt pos := by
  have hcond : ¬(source b = false ∧ sourceAround b pos w = false) := by
    rcases hsus with hs | hs <;> simp [hs]
  simp only [tickLiquid, if_neg hcond] at h
  cases hfall : tickFall b pos w (canFlowInto b w (below pos) false) with
  | error e => rw [hfall] at h; cases h
  | ok rr =>
    rw [hfall] at h
    obtain ⟨hb1, es1, hl1, ht1⟩ := tickFall_frame b pos w _ rr.1 rr.2 (by rw [hfall])
    obtain ⟨hb2, es2, hl2, ht2⟩ := tickSpread_frame fuel rr.1 pos rr.2 _ w1 h
    constructor
    · refine ⟨es1 ++ es2, by rw [hl2, hl1, List.append_assoc], fun e he _ => ?_⟩
      rcases List.mem_append.mp he with he | he
      · exact .inl (ht1 e he)
      · exact .inr (ht2 e he)
    · rw [hb2 pos (pos_not_mem_horiz pos), hb1 pos (pos_ne_below pos)]

/-- C10 witness: the tick of a sustained source over a plugged hole leaves
the source block unchanged and mutates only the horizontal neighbours and
the position below. -/
theorem claim_C10_witness :
    ∃ w1, tickLiquid 3 bSrcW posZ wSolidBelow = .ok w1 ∧
      ((∃ es, w1.log = wSolidBelow.log ++ es ∧ ∀ e ∈ es, e.isMutation = true →
          (e.target = below posZ ∨ e.target ∈ posZ.horizNeighbours)) ∧
        w1.blockAt posZ = wSolidBelow.blockAt posZ) :=
  ⟨_, rfl, claim_C10_frame 3 bSrcW posZ wSolidBelow _ (.inl (by decide)) rfl⟩

/-! ### Claim C2: lateral spread targets -/

/-- All returned paths of one search have equal length. -/
theorem calculatePaths_lengths_eq (fuel : Nat) (b : LiquidData) (pos : Pos3) (w : World)
    (paths : List LiquidPath)
    (h : calculateLiquidPaths fuel b pos w = .ok paths) :
    ∀ p ∈ paths, ∀ p2 ∈ paths, p.length = p2.length :=
  runPaths_SInv b pos w fuel _ [] paths ⟨by simp, by simp, by simp⟩ h

/-- A spent liquid (depth not surviving one decay) flows into nothing: every
non-falling flow fails without touching the world. -/
theorem flowSeq_spent (b : LiquidData) (src : Pos3) (targets : List Pos3) (w : World)
    (hd : b.depth - b.decay ≤ 0) :
    flowSeq b src targets w false = .ok w := by
  induction targets with
  | nil => rfl
  | cons t ts ih => simp only [flowSeq, flowInto_guard b src t w hd]; exact ih

/-- The paths whose length is at most the length of every returned path —
the tied-for-shortest selection named by the claim. -/
def shortestSelected (paths : List LiquidPath) : List LiquidPath :=
  paths.filter fun p => paths.all fun p2 => decide (p.length ≤ p2.length)

theorem shortestSelected_of_eq (paths : List LiquidPath)
    (heq : ∀ p ∈ paths, ∀ p2 ∈ paths, p.length = p2.length) :
    shortestSelected paths = paths := by
  apply List.filter_eq_self.mpr
  intro p hp
  rw [List.all_eq_true]
  intro p2 hp2
  exact decide_eq_true (le_of_eq (heq p hp p2 hp2))

theorem filter_headLen_of_eq (paths : List LiquidPath)
    (heq : ∀ p ∈ paths, ∀ p2 ∈ paths, p.length = p2.length) :
    (paths.filter fun p => decide (p.length ≤ (paths.headD []).length)) = paths := by
  apply List.filter_eq_self.mpr
  intro p hp
  cases paths with
  | nil => cases hp
  | cons p0 ps =>
    exact decide_eq_true (le_of_eq (heq p hp p0 (List.mem_cons_self p0 ps)))

/-- C2: a sustained tick performs lateral spread only if the liquid is a
source or could not flow below; in that case, with no paths found it flows
into the four horizontal neighbours (non-falling), and with paths found it
flows into exactly the first steps of the paths whose length is at most the
minimum length among all returned paths; otherwise the tick ends after the
falling step. -/
theorem claim_C2_spread (fuel : Nat) (b b2 : LiquidData) (pos : Pos3) (w w2 : World)
    (paths : List LiquidPath)
    (hsus : source b = true ∨ sourceAround b pos w = true)
    (hfall : tickFall b pos w (canFlowInto b w (below pos) false) = .ok (b2, w2))
    (hpaths : calculateLiquidPaths fuel b2 pos w2 = .ok paths) :
    tickLiquid fuel b pos w =
      (if source b2 = true ∨ canFlowInto b w (below pos) false = false then
        (if paths = [] then flowSeq b2 pos pos.horizNeighbours w2 false
         else flowSeq b2 pos ((shortestSelected paths).map fun p => p.headD ⟨0, 0, 0⟩)
           w2 false)
       else .ok w2) := by
  have hcond : ¬(source b = false ∧ sourceAround b pos w = false) := by
    rcases hsus with hs | hs <;> simp [hs]
  simp only [tickLiquid, if_neg hcond, hfall]
  unfold tickSpread
  by_cases hc : source b2 = true ∨ canFlowInto b w (below pos) false = false
  · by_cases hdd : b2.depth ≤ b2.decay
    · have hd0 : b2.depth - b2.decay ≤ 0 := by omega
      by_cases hemp : paths = []
      · simp only [if_pos hc, if_pos hdd, if_pos hemp, flowSeq_spent b2 pos _ w2 hd0]
      · simp only [if_pos hc, if_pos hdd, if_neg hemp, flowSeq_spent b2 pos _ w2 hd0]
    · simp only [if_pos hc, if_neg hdd, hpaths]
      by_cases hemp : paths = []
      · simp only [if_pos hemp]
        unfold spreadOutwards
        rw [neighbours_filter_y]
      · simp only [if_neg hemp]
        rw [flowPaths_eq_flowSeq]
        have heq := calculatePaths_lengths_eq fuel b2 pos w2 paths hpaths
        rw [filter_headLen_of_eq paths heq, shortestSelected_of_eq paths heq]
  · by_cases hdd : b2.depth ≤ b2.decay
    · simp only [if_neg hc, if_pos hdd]
    · simp only [if_neg hc, if_neg hdd]

/-- C2 witness: the sustained source over a plugged hole spreads into the
first steps of the four tied length-1 paths. -/
theorem claim_C2_witness :
    tickLiquid 3 bSrcW posZ wSolidBelow =
      (if source bSrcW = true ∨ canFlowInto bSrcW wSolidBelow (below posZ) false = false then
        (if ([[⟨-1, 0, 0⟩], [⟨1, 0, 0⟩], [⟨0, 0, -1⟩], [⟨0, 0, 1⟩]] : List LiquidPath) = [] then
          flowSeq bSrcW posZ posZ.horizNeighbours wSolidBelow false
         else flowSeq bSrcW posZ
           ((shortestSelected [[⟨-1, 0, 0⟩], [⟨1, 0, 0⟩], [⟨0, 0, -1⟩], [⟨0, 0, 1⟩]]).map
             fun p => p.headD ⟨0, 0, 0⟩) wSolidBelow false)
       else .ok wSolidBelow) :=
  claim_C2_spread 3 bSrcW bSrcW posZ wSolidBelow wSolidBelow _ (.inl (by decide)) rfl rfl

/-! ### Claim C6: which liquid value the lateral phase uses -/

/-- C6 (amended): a sustained tick's lateral phase (spread-capacity check,
path finding and spreading) operates on a liquid value determined by the
tick-start liquid and the can-flow-below test alone — the tick-start value
itself, or, when the liquid was falling and could not flow below, the
tick-start value forced to depth 8 falling (decay unchanged); it is never a
value re-read from the world after the falling step's mutation. -/
theorem claim_C6_spread_value (fuel : Nat) (b b2 : LiquidData) (pos : Pos3) (w w2 : World)
    (hsus : source b = true ∨ sourceAround b pos w = true)
    (hfall : tickFall b pos w (canFlowInto b w (below pos) false) = .ok (b2, w2)) :
    tickLiquid fuel b pos w = tickSpread fuel b2 pos w2 (canFlowInto b w (below pos) false) ∧
    b2.decay = b.decay ∧
    (b2 = b ∨ (b.falling = true ∧ canFlowInto b w (below pos) false = false ∧
      b2 = b.withDepth 8 true)) := by
  have hcond : ¬(source b = false ∧ sourceAround b pos w = false) := by
    rcases hsus with hs | hs <;> simp [hs]
  constructor
  · simp only [tickLiquid, if_neg hcond, hfall]
  · unfold tickFall at hfall
    split_ifs at hfall with h1 h2
    · obtain ⟨rfl, -⟩ := Prod.mk.inj (Except.ok.inj hfall)
      exact ⟨rfl, .inr ⟨h1.1, h1.2, rfl⟩⟩
    · cases hf : flowInto (b.withDepth 8 true) pos (below pos) w true with
      | error e => rw [hf] at hfall; cases hfall
      | ok rr =>
        rw [hf] at hfall
        obtain ⟨rfl, -⟩ := Prod.mk.inj (Except.ok.inj hfall)
        exact ⟨rfl, .inl rfl⟩
    · obtain ⟨rfl, -⟩ := Prod.mk.inj (Except.ok.inj hfall)
      exact ⟨rfl, .inl rfl⟩

/-- A falling depth-2 liquid over a plugged hole, sustained from above. -/
def bC6 : LiquidData := ⟨2, true, 1, "water"⟩

/-- The world for the C6 counterexample: a non-removable solid below the
origin and a water source above it. -/
def wC6 : World :=
  ⟨[(⟨0, -1, 0⟩, .solid false false false), (⟨0, 1, 0⟩, .liquid ⟨8, false, 1, "water"⟩)], []⟩

/-- The tick engine exactly as claim C6 words it: the lateral phase operates
on the liquid value as read at tick start, never a value mutated by the
falling-logic step. -/
def tickLiquidSpecC6 (fuel : Nat) (b : LiquidData) (pos : Pos3) (w : World) :
    Except TickErr World :=
  if source b = false ∧ sourceAround b pos w = false then
    if b.depth - 4 ≤ 0 then .ok (w.placeBlock pos .air)
    else .ok (w.placeBlock pos (.liquid (b.withDepth (b.depth - 2 * b.decay) false)))
  else
    let canFlowBelow := canFlowInto b w (below pos) false
    match tickFall b pos w canFlowBelow with
    | .error e => .error e
    | .ok r => tickSpread fuel b pos r.2 canFlowBelow

/-- C6 counterexample: for a sustained falling depth-2 liquid that cannot
flow below, the code spreads the forced depth-8 value (placing depth-7
neighbours), while the claim's tick-start reading would place depth-1
neighbours. -/
theorem claim_C6_cex :
    ∃ w1 w2, tickLiquid 3 bC6 posZ wC6 = .ok w1 ∧
      tickLiquidSpecC6 3 bC6 posZ wC6 = .ok w2 ∧
      w1.blockAt p10 ≠ w2.blockAt p10 :=
  ⟨_, _, rfl, rfl, by decide⟩

/-- C6 witness: the falling blocked liquid is forced to depth 8 falling, a
value computed from the tick-start liquid, and the spread phase runs on it. -/
theorem claim_C6_witness :
    tickLiquid 3 bC6 posZ wC6 =
      tickSpread 3 (bC6.withDepth 8 true) posZ wC6 (canFlowInto bC6 wC6 (below posZ) false) ∧
    (bC6.withDepth 8 true).decay = bC6.decay ∧
    (bC6.withDepth 8 true = bC6 ∨ (bC6.falling = true ∧
      canFlowInto bC6 wC6 (below posZ) false = false ∧
      bC6.withDepth 8 true = bC6.withDepth 8 true)) :=
  claim_C6_spread_value 3 bC6 (bC6.withDepth 8 true) posZ wC6 wC6 (.inr (by decide)) rfl

/-! ### Claim C7: depth range of placed liquids -/

/-- An effect is depth-sound when, if it places a block, the block is air or
a liquid with depth in `[1, 8]`. -/
def placeOK (e : Effect) : Prop :=
  ∀ q blk, e = .place q blk →
    blk = .air ∨ ∃ l, blk = .liquid l ∧ 1 ≤ l.depth ∧ l.depth ≤ 8

theorem placeOK_brk (p : Pos3) : placeOK (.brk p) := by
  intro q blk heq
  simp at heq

theorem placeOK_harden (p s : Pos3) : placeOK (.harden p s) := by
  intro q blk heq
  simp at heq

/-- One flow of a liquid with depth in `[1, 8]` and decay at least 1 places
only liquids with depth in `[1, 8]`. -/
theorem flowInto_placeOK (b : LiquidData) (src tgt : Pos3) (w : World) (falling : Bool)
    (w1 : World) (r : Bool)
    (hd1 : 1 ≤ b.depth) (hd2 : b.depth ≤ 8) (hc1 : 1 ≤ b.decay)
    (h : flowInto b src tgt w falling = .ok (w1, r)) :
    ∃ es, w1.log = w.log ++ es ∧ ∀ e ∈ es, placeOK e := by
  by_cases hg : (if falling = true then b.depth else b.depth - b.decay) ≤ 0 ∧ falling = false
  · rw [flowInto_guardEq b src tgt w falling hg] at h
    obtain ⟨rfl, -⟩ := Prod.mk.inj (Except.ok.inj h)
    exact ⟨[], by simp, by simp⟩
  · have hnd : 1 ≤ (if falling = true then b.depth else b.depth - b.decay) ∧
        (if falling = true then b.depth else b.depth - b.decay) ≤ 8 := by
      cases falling <;> simp_all <;> omega
    have hpay : placeOK (.place tgt (Block.liquid
        (b.withDepth (if falling = true then b.depth else b.depth - b.decay) falling))) := by
      intro q blk heq
      injection heq with e1 e2
      exact .inr ⟨_, e2.symm, hnd.1, hnd.2⟩
    rcases hblk : w.blockAt tgt with _ | ex | ⟨re, dr, it⟩
    · rw [flowInto_airEq b src tgt w falling hg hblk] at h
      obtain ⟨rfl, -⟩ := Prod.mk.inj (Except.ok.inj h)
      refine ⟨[.place tgt (Block.liquid
        (b.withDepth (if falling = true then b.depth else b.depth - b.decay) falling))],
        by simp, ?_⟩
      intro e he
      simp only [List.mem_singleton] at he
      subst he
      exact hpay
    · rw [flowInto_liquidEq b src tgt w falling ex hg hblk] at h
      by_cases hk : ex.kind = b.kind
      · rw [if_pos hk] at h
        by_cases hsat : ex.depth ≥ (if falling = true then b.depth else b.depth - b.decay) ∨
            ex.falling = true
        · rw [if_pos hsat] at h
          obtain ⟨rfl, -⟩ := Prod.mk.inj (Except.ok.inj h)
          exact ⟨[], by simp, by simp⟩
        · rw [if_neg hsat] at h
          obtain ⟨rfl, -⟩ := Prod.mk.inj (Except.ok.inj h)
          refine ⟨[.place tgt (Block.liquid
            (b.withDepth (if falling = true then b.depth else b.depth - b.decay) falling))],
            by simp, ?_⟩
          intro e he
          simp only [List.mem_singleton] at he
          subst he
          exact hpay
      · rw [if_neg hk] at h
        obtain ⟨rfl, -⟩ := Prod.mk.inj (Except.ok.inj h)
        refine ⟨[.harden tgt src], by simp, ?_⟩
        intro e he
        simp only [List.mem_singleton] at he
        subst he
        exact placeOK_harden tgt src
    · rw [flowInto_solidEq b src tgt w falling re dr it hg hblk] at h
      by_cases hre : re = false
      · rw [if_pos hre] at h
        obtain ⟨rfl, -⟩ := Prod.mk.inj (Except.ok.inj h)
        exact ⟨[], by simp, by simp⟩
      · rw [if_neg hre] at h
        by_cases hdrop : dr = true ∧ it = false
        · rw [if_pos hdrop] at h
          cases h
        · rw [if_neg hdrop] at h
          obtain ⟨rfl, -⟩ := Prod.mk.inj (Except.ok.inj h)
          refine ⟨[.brk tgt, .place tgt (Block.liquid
            (b.withDepth (if falling = true then b.depth else b.depth - b.decay) falling))],
            by simp, ?_⟩
          intro e he
          rcases List.mem_cons.mp he with he | he
          · subst he
            exact placeOK_brk tgt
          · simp only [List.mem_singleton] at he
            subst he
            exact hpay

theorem flowSeq_placeOK (b : LiquidData) (src : Pos3) (targets : List Pos3)
    (hd1 : 1 ≤ b.depth) (hd2 : b.depth ≤ 8) (hc1 : 1 ≤ b.decay) :
    ∀ (w : World) (falling : Bool) (w1 : World),
      flowSeq b src targets w falling = .ok w1 →
      ∃ es, w1.log = w.log ++ es ∧ ∀ e ∈ es, placeOK e := by
  induction targets with
  | nil =>
    intro w falling w1 h
    obtain rfl : w = w1 := by simpa [flowSeq] using h
    exact ⟨[], by simp, by simp⟩
  | cons t ts ih =>
    intro w falling w1 h
    simp only [flowSeq] at h
    cases hf : flowInto b src t w falling with
    | error e => rw [hf] at h; cases h
    | ok rr =>
      rw [hf] at h
      obtain ⟨es1, hl1, hp1⟩ := flowInto_placeOK b src t w falling rr.1 rr.2 hd1 hd2 hc1
        (by rw [hf])
      obtain ⟨es2, hl2, hp2⟩ := ih rr.1 falling w1 h
      refine ⟨es1 ++ es2, by rw [hl2, hl1, List.append_assoc], ?_⟩
      intro e he
      rcases List.mem_append.mp he with he | he
      · exact hp1 e he
      · exact hp2 e he

/-- The liquid value the lateral phase receives from the falling step. -/
theorem tickFall_liquid (b : LiquidData) (pos : Pos3) (w : World) (cfb : Bool)
    (b2 : LiquidData) (w2 : World)
    (h : tickFall b pos w cfb = .ok (b2, w2)) :
    b2 = b ∨ b2 = b.withDepth 8 true := by
  unfold tickFall at h
  split_ifs at h with h1 h2
  · obtain ⟨rfl, -⟩ := Prod.mk.inj (Except.ok.inj h)
    exact .inr rfl
  · cases hf : flowInto (b.withDepth 8 true) pos (below pos) w true with
    | error e => rw [hf] at h; cases h
    | ok rr =>
      rw [hf] at h
      obtain ⟨rfl, -⟩ := Prod.mk.inj (Except.ok.inj h)
      exact .inl rfl
  · obtain ⟨rfl, -⟩ := Prod.mk.inj (Except.ok.inj h)
    exact .inl rfl

theorem tickFall_placeOK (b : LiquidData) (pos : Pos3) (w : World) (cfb : Bool)
    (b2 : LiquidData) (w2 : World)
    (hd1 : 1 ≤ b.depth) (hd2 : b.depth ≤ 8) (hc1 : 1 ≤ b.decay)
    (h : tickFall b pos w cfb = .ok (b2, w2)) :
    ∃ es, w2.log = w.log ++ es ∧ ∀ e ∈ es, placeOK e := by
  unfold tickFall at h
  split_ifs at h with h1 h2
  · obtain ⟨-, rfl⟩ := Prod.mk.inj (Except.ok.inj h)
    exact ⟨[], by simp, by simp⟩
  · cases hf : flowInto (b.withDepth 8 true) pos (below pos) w true with
    | error e => rw [hf] at h; cases h
    | ok rr =>
      rw [hf] at h
      obtain ⟨-, rfl⟩ := Prod.mk.inj (Except.ok.inj h)
      exact flowInto_placeOK (b.withDepth 8 true) pos (below pos) w true rr.1 rr.2
        (by norm_num [LiquidData.withDepth]) (by norm_num [LiquidData.withDepth]) hc1
        (by rw [hf])
  · obtain ⟨-, rfl⟩ := Prod.mk.inj (Except.ok.inj h)
    exact ⟨[], by simp, by simp⟩

theorem tickSpread_placeOK (fuel : Nat) (b2 : LiquidData) (pos : Pos3) (w2 : World)
    (cfb : Bool) (w1 : World)
    (hd1 : 1 ≤ b2.depth) (hd2 : b2.depth ≤ 8) (hc1 : 1 ≤ b2.decay)
    (h : tickSpread fuel b2 pos w2 cfb = .ok w1) :
    ∃ es, w1.log = w2.log ++ es ∧ ∀ e ∈ es, placeOK e := by
  unfold tickSpread at h
  split_ifs at h with h1 h2
  · obtain rfl := Except.ok.inj h
    exact ⟨[], by simp, by simp⟩
  · cases hp : calculateLiquidPaths fuel b2 pos w2 with
    | error e => rw [hp] at h; simp at h
    | ok paths =>
      rw [hp] at h
      replace h : (if paths = [] then spreadOutwards b2 pos w2
          else flowPaths b2 pos w2 paths (paths.headD []).length) = .ok w1 := h
      by_cases hemp : paths = []
      · rw [if_pos hemp] at h
        unfold spreadOutwards at h
        exact flowSeq_placeOK b2 pos _ hd1 hd2 hc1 w2 false w1 h
      · rw [if_neg hemp, flowPaths_eq_flowSeq] at h
        exact flowSeq_placeOK b2 pos _ hd1 hd2 hc1 w2 false w1 h
  · obtain rfl := Except.ok.inj h
    exact ⟨[], by simp, by simp⟩

/-- C7 (amended): for every liquid with depth in `[1, 8]` and decay in
`{1, 2}`, a tick never places a liquid with depth outside `[1, 8]` — the
decay branch removes the block or places `depth - 2*decay ∈ [1, 6]`, the
non-falling flows are guarded by `depth - decay > 0`, and the falling flows
place depth 8. (For decay at least 3 the decay branch violates the claim;
see `claim_C7_cex`.) -/
theorem claim_C7_depth_range (fuel : Nat) (b : LiquidData) (pos : Pos3) (w w1 : World)
    (hd1 : 1 ≤ b.depth) (hd2 : b.depth ≤ 8) (hc1 : 1 ≤ b.decay) (hc2 : b.decay ≤ 2)
    (h : tickLiquid fuel b pos w = .ok w1) :
    ∃ es, w1.log = w.log ++ es ∧ ∀ e ∈ es, placeOK e := by
  by_cases hcond : source b = false ∧ sourceAround b pos w = false
  · simp only [tickLiquid, if_pos hcond] at h
    by_cases hd : b.depth - 4 ≤ 0
    · rw [if_pos hd] at h
      obtain rfl := Except.ok.inj h
      refine ⟨[.place pos .air], by simp, ?_⟩
      intro e he
      simp only [List.mem_singleton] at he
      subst he
      intro q blk heq
      injection heq with e1 e2
      exact .inl e2.symm
    · rw [if_neg hd] at h
      obtain rfl := Except.ok.inj h
      refine ⟨[.place pos (.liquid (b.withDepth (b.depth - 2 * b.decay) false))],
        by simp, ?_⟩
      intro e he
      simp only [List.mem_singleton] at he
      subst he
      intro q blk heq
      injection heq with e1 e2
      refine .inr ⟨b.withDepth (b.depth - 2 * b.decay) false, e2.symm, ?_, ?_⟩
      · show 1 ≤ b.depth - 2 * b.decay
        omega
      · show b.depth - 2 * b.decay ≤ 8
        omega
  · simp only [tickLiquid, if_neg hcond] at h
    cases hfall : tickFall b pos w (canFlowInto b w (below pos) false) with
    | error e => rw [hfall] at h; cases h
    | ok rr =>
      rw [hfall] at h
      obtain ⟨es1, hl1, hp1⟩ := tickFall_placeOK b pos w _ rr.1 rr.2 hd1 hd2 hc1
        (by rw [hfall])
      have hb2 := tickFall_liquid b pos w _ rr.1 rr.2 (by rw [hfall])
      have hbd : 1 ≤ rr.1.depth ∧ rr.1.depth ≤ 8 ∧ 1 ≤ rr.1.decay := by
        rcases hb2 with he | he
        · rw [he]
          exact ⟨hd1, hd2, hc1⟩
        · rw [he]
          exact ⟨by norm_num [LiquidData.withDepth], by norm_num [LiquidData.withDepth], hc1⟩
      obtain ⟨es2, hl2, hp2⟩ := tickSpread_placeOK fuel rr.1 pos rr.2 _ w1
        hbd.1 hbd.2.1 hbd.2.2 h
      refine ⟨es1 ++ es2, by rw [hl2, hl1, List.append_assoc], ?_⟩
      intro e he
      rcases List.mem_append.mp he with he | he
      · exact hp1 e he
      · exact hp2 e he

/-- C7 counterexample: depth 5, decay 3 (within the claim's `decay ≥ 1`
scope) decays to a placed liquid of depth `-1` instead of removing the
block. -/
theorem claim_C7_cex :
    (1 : Int) ≤ (⟨5, false, 3, "x"⟩ : LiquidData).decay ∧
    (1 : Int) ≤ (⟨5, false, 3, "x"⟩ : LiquidData).depth ∧
    (⟨5, false, 3, "x"⟩ : LiquidData).depth ≤ 8 ∧
    tickLiquid 1 ⟨5, false, 3, "x"⟩ posZ wEmpty =
      .ok (wEmpty.placeBlock posZ (.liquid ⟨-1, false, 3, "x"⟩)) ∧
    ¬(1 ≤ (-1 : Int)) :=
  ⟨by decide, by decide, by decide, rfl, by decide⟩

/-- C7 witness: a decay-1 depth-7 tick places only liquids with depth in
`[1, 8]`. -/
theorem claim_C7_witness :
    ∃ w1, tickLiquid 1 ⟨7, false, 1, "water"⟩ posZ wEmpty = .ok w1 ∧
      ∃ es, w1.log = wEmpty.log ++ es ∧ ∀ e ∈ es, placeOK e :=
  ⟨_, rfl, claim_C7_depth_range 1 ⟨7, false, 1, "water"⟩ posZ wEmpty _
    (by decide) (by decide) (by decide) (by decide) rfl⟩

/-! ### Claim C9: abort conditions of the flow and tick operations -/

@[simp]
theorem World.blockAt_breakBlock_self (w : World) (p : Pos3) :
    (w.breakBlock p).blockAt p = .air := by
  simp [World.blockAt, World.breakBlock, List.find?]

/-- The search loop reports no error other than fuel exhaustion: in
particular, finding no paths is a normal outcome, not an abort. -/
theorem runPaths_fuelErr (b : LiquidData) (pos : Pos3) (w : World) :
    ∀ (fuel : Nat) (q : LiquidQueue) (ps : List LiquidPath) (e : TickErr),
      runPaths b pos w fuel q ps = .error e → e = .fuel := by
  intro fuel
  induction fuel with
  | zero =>
    intro q ps e h
    simp only [runPaths, Except.error.injEq] at h
    exact h.symm
  | succ fuel ih =>
    intro q ps e h
    rcases hq : q.pending with _ | ⟨node, rest⟩
    · simp only [runPaths, hq] at h
      cases h
    · simp only [runPaths, hq] at h
      exact ih _ _ e h

/-- A world none of whose blocks carries the broken capability registration
(liquid-removable, liquid drops, no `world.Item`). -/
def noBrokenBlocks (w : World) : Prop :=
  ∀ p, w.blockAt p ≠ .solid true true false

theorem noBrokenBlocks_place_liquid (w : World) (tgt : Pos3) (l : LiquidData)
    (h : noBrokenBlocks w) : noBrokenBlocks (w.placeBlock tgt (.liquid l)) := by
  intro p
  by_cases hp : p = tgt
  · subst hp
    simp
  · rw [World.blockAt_placeBlock_ne w tgt p _ hp]
    exact h p

theorem noBrokenBlocks_break (w : World) (tgt : Pos3) (h : noBrokenBlocks w) :
    noBrokenBlocks (w.breakBlock tgt) := by
  intro p
  by_cases hp : p = tgt
  · subst hp
    simp
  · rw [World.blockAt_breakBlock_ne w tgt p hp]
    exact h p

/-- In a world with no broken-capability block, `flowInto` never aborts, and
it preserves the absence of broken blocks (it only ever places liquids or
air). -/
theorem flowInto_ok_noBroken (b : LiquidData) (src tgt : Pos3) (w : World) (falling : Bool)
    (hnb : noBrokenBlocks w) :
    ∃ w1 r, flowInto b src tgt w falling = .ok (w1, r) ∧ noBrokenBlocks w1 := by
  by_cases hg : (if falling = true then b.depth else b.depth - b.decay) ≤ 0 ∧ falling = false
  · exact ⟨w, false, flowInto_guardEq b src tgt w falling hg, hnb⟩
  · rcases hblk : w.blockAt tgt with _ | ex | ⟨re, dr, it⟩
    · exact ⟨_, true, flowInto_airEq b src tgt w falling hg hblk,
        noBrokenBlocks_place_liquid w tgt _ hnb⟩
    · by_cases hk : ex.kind = b.kind
      · by_cases hsat : ex.depth ≥ (if falling = true then b.depth else b.depth - b.decay) ∨
            ex.falling = true
        · exact ⟨w, true,
            by rw [flowInto_liquidEq b src tgt w falling ex hg hblk, if_pos hk, if_pos hsat],
            hnb⟩
        · exact ⟨_, true,
            by rw [flowInto_liquidEq b src tgt w falling ex hg hblk, if_pos hk, if_neg hsat],
            noBrokenBlocks_place_liquid w tgt _ hnb⟩
      · refine ⟨w.hardenEvent tgt src, false,
          by rw [flowInto_liquidEq b src tgt w falling ex hg hblk, if_neg hk], fun p => ?_⟩
        rw [World.blockAt_hardenEvent]
        exact hnb p
    · by_cases hre : re = false
      · exact ⟨w, false,
          by rw [flowInto_solidEq b src tgt w falling re dr it hg hblk, if_pos hre], hnb⟩
      · have hret : re = true := by rcases re with _ | _ <;> simp_all
        have hdrop : ¬(dr = true ∧ it = false) := by
          rintro ⟨hd, hi⟩
          exact hnb tgt (by rw [hblk, hret, hd, hi])
        exact ⟨_, true,
          by rw [flowInto_solidEq b src tgt w falling re dr it hg hblk, if_neg hre,
            if_neg hdrop],
          noBrokenBlocks_place_liquid _ tgt _ (noBrokenBlocks_break w tgt hnb)⟩

theorem flowSeq_ok_noBroken (b : LiquidData) (src : Pos3) (targets : List Pos3) :
    ∀ (w : World) (falling : Bool), noBrokenBlocks w →
      ∃ w1, flowSeq b src targets w falling = .ok w1 ∧ noBrokenBlocks w1 := by
  induction targets with
  | nil => intro w falling hnb; exact ⟨w, rfl, hnb⟩
  | cons t ts ih =>
    intro w falling hnb
    obtain ⟨w1, r, hf, hnb1⟩ := flowInto_ok_noBroken b src t w falling hnb
    obtain ⟨w2, hseq, hnb2⟩ := ih w1 falling hnb1
    refine ⟨w2, ?_, hnb2⟩
    simp only [flowSeq, hf]
    exact hseq

theorem tickFall_ok_noBroken (b : LiquidData) (pos : Pos3) (w : World) (cfb : Bool)
    (hnb : noBrokenBlocks w) :
    ∃ b2 w2, tickFall b pos w cfb = .ok (b2, w2) ∧ noBrokenBlocks w2 := by
  unfold tickFall
  split_ifs with h1 h2
  · exact ⟨_, w, rfl, hnb⟩
  · obtain ⟨w1, r, hf, hnb1⟩ :=
      flowInto_ok_noBroken (b.withDepth 8 true) pos (below pos) w true hnb
    exact ⟨b, w1, by rw [hf], hnb1⟩
  · exact ⟨b, w, rfl, hnb⟩

theorem tickSpread_fuelErr (fuel : Nat) (b2 : LiquidData) (pos : Pos3) (w2 : World)
    (cfb : Bool) (e : TickErr)
    (hnb : noBrokenBlocks w2)
    (h : tickSpread fuel b2 pos w2 cfb = .error e) : e = .fuel := by
  unfold tickSpread at h
  by_cases h1 : b2.depth ≤ b2.decay
  · rw [if_pos h1] at h
    cases h
  · rw [if_neg h1] at h
    by_cases h2 : source b2 = true ∨ cfb = false
    · rw [if_pos h2] at h
      cases hp : calculateLiquidPaths fuel b2 pos w2 with
      | error e2 =>
        rw [hp] at h
        replace h : (Except.error e2 : Except TickErr World) = .error e := h
        obtain rfl := Except.error.inj h
        exact runPaths_fuelErr b2 pos w2 fuel _ [] e2 hp
      | ok paths =>
        rw [hp] at h
        replace h : (if paths = [] then spreadOutwards b2 pos w2
            else flowPaths b2 pos w2 paths (paths.headD []).length) = .error e := h
        by_cases hemp : paths = []
        · rw [if_pos hemp] at h
          unfold spreadOutwards at h
          obtain ⟨w1, hseq, -⟩ := flowSeq_ok_noBroken b2 pos _ w2 false hnb
          rw [hseq] at h
          cases h
        · rw [if_neg hemp, flowPaths_eq_flowSeq] at h
          obtain ⟨w1, hseq, -⟩ := flowSeq_ok_noBroken b2 pos _ w2 false hnb
          rw [hseq] at h
          cases h
    · rw [if_neg h2] at h
      cases h

/-- A tick of a world holding no broken-capability block never aborts: its
only error is the embedding's fuel artifact. -/
theorem tickLiquid_fuelErr (fuel : Nat) (b : LiquidData) (pos : Pos3) (w : World)
    (e : TickErr) (hnb : noBrokenBlocks w)
    (h : tickLiquid fuel b pos w = .error e) : e = .fuel := by
  by_cases hcond : source b = false ∧ sourceAround b pos w = false
  · simp only [tickLiquid, if_pos hcond] at h
    split_ifs at h
  · simp only [tickLiquid, if_neg hcond] at h
    obtain ⟨b2, w2, hfall, hnb2⟩ := tickFall_ok_noBroken b pos w
      (canFlowInto b w (below pos) false) hnb
    simp only [hfall] at h
    exact tickSpread_fuelErr fuel b2 pos w2 _ e hnb2 h

/-- C9 (amended): the flow/tick operations abort only through the drops
panic of `flowInto`: (1) `flowInto` aborts iff the depth guard passes
(falling, or `depth - decay > 0`) and the target is a non-liquid block
registered liquid-removable with liquid drops that does not implement
`world.Item`; (2) the path finder itself never aborts — finding no paths
returns normally, its only error being the embedding's fuel artifact; and
(3) a tick of a world holding no such broken-capability block never aborts
either (again up to the fuel artifact): no path found, a target not
flow-permissible, and incompatible liquid contact all return normally. -/
theorem claim_C9_panic :
    (∀ (b : LiquidData) (src pos : Pos3) (w : World) (falling : Bool) (err : TickErr),
      flowInto b src pos w falling = .error err ↔
        (err = .panicDrops ∧ ¬(falling = false ∧ b.depth - b.decay ≤ 0) ∧
          w.blockAt pos = .solid true true false)) ∧
    (∀ (b : LiquidData) (pos : Pos3) (w : World) (fuel : Nat) (q : LiquidQueue)
        (ps : List LiquidPath) (e : TickErr),
      runPaths b pos w fuel q ps = .error e → e = .fuel) ∧
    (∀ (fuel : Nat) (b : LiquidData) (pos : Pos3) (w : World) (e : TickErr),
      noBrokenBlocks w → tickLiquid fuel b pos w = .error e → e = .fuel) :=
  ⟨fun b src pos w falling err => flowInto_error_iff b src pos w falling err,
   fun b pos w fuel q ps e h => runPaths_fuelErr b pos w fuel q ps e h,
   fun fuel b pos w e hnb h => tickLiquid_fuelErr fuel b pos w e hnb h⟩

/-- The plugged-hole world has no broken-capability block. -/
theorem wSolidBelow_noBroken : noBrokenBlocks wSolidBelow := by
  intro p
  show wSolidBelow.blockAt p ≠ _
  unfold World.blockAt wSolidBelow
  simp only [List.find?]
  by_cases hp : (⟨0, -1, 0⟩ : Pos3) = p
  · simp [hp]
  · simp [hp]

/-- C9 witness: the panic equivalence forced at a liquid over a
broken-capability block, and a fuel-starved search and tick of a clean
world erring only with the fuel artifact. -/
theorem claim_C9_witness :
    wBroke.blockAt p10 = .solid true true false ∧
    flowInto ⟨7, false, 1, "water"⟩ posZ p10 wBroke false = .error .panicDrops ∧
    runPaths bSrcW posZ wSolidBelow 0 ⟨[⟨0, 0, 8, []⟩], 127⟩ [] = .error TickErr.fuel ∧
    TickErr.fuel = TickErr.fuel ∧
    noBrokenBlocks wSolidBelow ∧
    tickLiquid 0 bSrcW posZ wSolidBelow = .error TickErr.fuel ∧
    TickErr.fuel = TickErr.fuel :=
  ⟨by decide,
   (claim_C9_panic.1 ⟨7, false, 1, "water"⟩ posZ p10 wBroke false .panicDrops).mpr
     ⟨rfl, by decide, by decide⟩,
   rfl,
   claim_C9_panic.2.1 bSrcW posZ wSolidBelow 0 ⟨[⟨0, 0, 8, []⟩], 127⟩ [] TickErr.fuel rfl,
   wSolidBelow_noBroken,
   rfl,
   claim_C9_panic.2.2 0 bSrcW posZ wSolidBelow TickErr.fuel wSolidBelow_noBroken rfl⟩

end Dragonfly
